import Mathlib

/-!
# Phantasma `Address` (C++/Libs/Cryptography/Address.h)

A shallow embedding of the `phantasma::Address` class and a verification of its
specified properties.

Conventions of the embedding.

* `Byte` and `Char` of the C++ code are both 8 bits wide and the casts between them keep the
  bit pattern, so the single type `Byte = Fin 256` stands for both; a C++ `String` is a list of
  them (`Str`).
* A fixed-size C++ array `Byte x[n]` is a list of length `n` (`Buf n`).  A local array that the
  C++ code declares without initialising it is an argument of the embedded function: its
  content at entry is arbitrary.
* A pointer argument is the list of bytes it points to (`none` for the null pointer).
* `PHANTASMA_EXCEPTION` is defined outside `Address.h`; it is embedded as reporting a message
  and letting control continue, see `Reported`.
* An operation whose C++ execution writes past the end of an array has no defined result; such
  functions return an `Option`, and `none` stands for "no defined result".
* Lengths of strings and arrays are assumed to fit in an `int`, so `(int)text.length()` is the
  length itself.
-/

namespace phantasma

set_option maxRecDepth 100000

/-- An 8-bit unit: the `Byte` and the `Char` of the C++ code. -/
abbrev Byte := Fin 256

/-- A C++ `String`: a sequence of 8-bit characters. -/
abbrev Str := List Byte

/-- A C++ array `Byte x[n]`. -/
abbrev Buf (n : Nat) := { l : List Byte // l.length = n }

/-- The macro `PHANTASMA_LITERAL("...")`: the characters of a string literal. -/
def PHANTASMA_LITERAL (s : String) : Str := s.toList.map fun c => (Fin.ofNat c.toNat : Fin 256)

/-- Modelled from the spec: the macro `PHANTASMA_EXCEPTION` is not defined in `Address.h`.
Following section 7 of the specification ("returns an explicit error alongside a safe default")
and the code that `Address.h` places after every use of the macro, an operation yields its
return value together with the messages it reported, in order; control continues after a
report. -/
structure Reported (α : Type) where
  value : α
  errors : List String
deriving DecidableEq, Repr

def TextLength : Nat := 45
def PublicKeyLength : Nat := 32
def MaxPlatformNameLength : Nat := 10

/-- The constant `static constexpr Byte NullKey[PublicKeyLength] = {}`: thirty-two zero bytes. -/
def NullKey : Buf 32 := ⟨List.replicate 32 0, by simp⟩

def UserOpcode : Byte := 75
def SystemOpcode : Byte := 85
def InteropOpcode : Byte := 102

/-- The data members of `Address`: `_opcode`, `_publicKey[PublicKeyLength]` and the mutable
text cache `_text`. -/
structure Address where
  opcode : Byte
  publicKey : Buf 32
  text : Str
deriving DecidableEq, Repr

namespace Address

/-- The read `_publicKey[i]` for a constant or checked index. -/
def keyAt (a : Address) (i : Nat) : Byte := a.publicKey.val.getD i 0

/-- The default constructor `Address()`: the key is a copy of `NullKey`; `_opcode` keeps its member initialiser `74`
and `_text` is empty. -/
def Address0 : Address := { opcode := 74, publicKey := NullKey, text := [] }

/-- The method `IsNull()`: `PHANTASMA_EQUAL(_publicKey, _publicKey + PublicKeyLength, NullKey)`. -/
def IsNull (a : Address) : Bool := a.publicKey.val == NullKey.val

/-- The method `IsSystem()`: `_publicKey[0] == (Byte)'!' || IsNull()`. -/
def IsSystem (a : Address) : Bool := a.keyAt 0 == 33 || a.IsNull

/-- The method `IsInterop()`: `!IsNull() && _publicKey[0] == (Byte)'*'`. -/
def IsInterop (a : Address) : Bool := !a.IsNull && a.keyAt 0 == 42

/-- The method `IsUser()`: `!IsSystem() && !IsInterop()`. -/
def IsUser (a : Address) : Bool := !a.IsSystem && !a.IsInterop

/-- The operator `operator==`: compares the thirty-two key bytes only. -/
def opEq (a b : Address) : Bool := a.publicKey.val == b.publicKey.val

/-- The operator `operator!=`. -/
def opNe (a b : Address) : Bool := !(a.publicKey.val == b.publicKey.val)

end Address

/-- The copy `PHANTASMA_COPY(publicKey, publicKey + 32, _publicKey)`: the first thirty-two bytes of the
array `p` that the pointer designates.  The caller owes the constructor thirty-two readable
bytes; a position past the end of `p` is read as `0` to keep the function total. -/
def copyKey (p : List Byte) : Buf 32 :=
  ⟨(p ++ List.replicate 32 0).take 32, by simp⟩

/-- A condition that names a member function without calling it.  The constructor writes
`if (IsSystem)` and `else if (IsInterop)`: there is no argument list, so neither predicate is
evaluated on the key.  The expression designates the member itself, and as a condition it is
a pointer-to-member that is never null: `true` for every object. -/
def memberAsCondition (_member : Address → Bool) : Bool := true

/-- The constructor `Address(const Byte* publicKey, int length)`.  A null pointer or a length other than
`PublicKeyLength` reports "Invalid public key length" and leaves the null key (with `_opcode`
at its initialiser).  Otherwise the key is copied and `_opcode` is chosen by the
`if (IsSystem) … else if (IsInterop) … else …` chain, whose conditions are bare member names
(`memberAsCondition`). -/
def Address.ctor (publicKey : Option (List Byte)) (length : Int) : Reported Address :=
  match publicKey with
  | none => { value := Address.Address0, errors := ["Invalid public key length"] }
  | some p =>
    if length ≠ (PublicKeyLength : Int) then
      { value := Address.Address0, errors := ["Invalid public key length"] }
    else
      let self : Address := { opcode := 74, publicKey := copyKey p, text := [] }
      let opcode :=
        if memberAsCondition Address.IsSystem then SystemOpcode
        else if memberAsCondition Address.IsInterop then InteropOpcode
        else UserOpcode
      { value := { self with opcode := opcode }, errors := [] }

/-- The constructor `Address(const ByteArray& publicKey)`: delegates with `&publicKey.front()` and
`publicKey.size()`. -/
def Address.ctorByteArray (publicKey : List Byte) : Reported Address :=
  Address.ctor (some publicKey) publicKey.length

/-- The Base58 codec of `Numerics/Base58.h`, which `Address.h` calls and which is taken as a
parameter.  `Encode` maps a byte sequence to text.  `Decode` receives the output array (its
length is the capacity passed in C++) and the text, and returns its `int` result together
with the content of the output array afterwards. -/
structure Base58 where
  Encode : List Byte → Str
  Decode : {n : Nat} → Buf n → Str → Int × Buf n

/-- The method `Text()`: when the cache is empty, `Base58::Encode(&_opcode, PublicKeyLength+1)` encodes
the thirty-three bytes that start at `_opcode` (the opcode, then the key, which follows it in
the object) and stores the result in the cache.  Returns the text and the object afterwards. -/
def Address.Text (codec : Base58) (a : Address) : Str × Address :=
  if a.text.isEmpty then
    let t := codec.Encode (a.opcode :: a.publicKey.val)
    (t, { a with text := t })
  else (a.text, a)

/-- The macro `PHANTASMA_STRLEN`: the number of characters before the first NUL. -/
def PHANTASMA_STRLEN : Str → Nat
  | [] => 0
  | c :: rest => if c = 0 then 0 else PHANTASMA_STRLEN rest + 1

/-- The function `FromText(const Char* text, int textLength, bool* out_error)`.  `bytes` is the content at
entry of the uninitialised local array `Byte bytes[PublicKeyLength+1]`; `out_error` is `none`
for a null pointer and otherwise the value of the pointee.  Returns the address and the
pointee of `out_error` afterwards. -/
def Address.FromTextPtr (codec : Base58) (bytes : Buf 33) (text : Str) (textLength : Int)
    (out_error : Option Bool) : Reported (Address × Option Bool) :=
  let textLength : Int := if textLength = 0 then (PHANTASMA_STRLEN text : Int) else textLength
  if textLength ≠ (TextLength : Int) then
    { value := (Address.Address0, out_error.map fun _ => true),
      errors := ["Invalid address length"] }
  else
    let r := codec.Decode bytes (text.take textLength.toNat)
    let decoded : Int := r.1
    let bytes := r.2
    let errors1 : List String :=
      if decoded ≠ (PublicKeyLength : Int) + 1 then ["Invalid address encoding"] else []
    let opcode : Byte := bytes.val.getD 0 0
    let errors2 : List String :=
      if opcode ≠ UserOpcode ∧ opcode ≠ SystemOpcode ∧ opcode ≠ InteropOpcode then
        ["Invalid address opcode"] else []
    let error : Bool :=
      decide (decoded ≠ (PublicKeyLength : Int) + 1) ||
      decide (opcode ≠ UserOpcode ∧ opcode ≠ SystemOpcode ∧ opcode ≠ InteropOpcode)
    if error then
      { value := (Address.Address0, out_error.map fun _ => true), errors := errors1 ++ errors2 }
    else
      let made := Address.ctor (some (bytes.val.drop 1)) (decoded - 1)
      { value := (made.value, out_error), errors := errors1 ++ errors2 ++ made.errors }

/-- The function `FromText(const String& text, bool* out_error)`. -/
def Address.FromText (codec : Base58) (bytes : Buf 33) (text : Str)
    (out_error : Option Bool) : Reported (Address × Option Bool) :=
  Address.FromTextPtr codec bytes text text.length out_error

/-- The function `IsValidAddress(const String& text)`: `error` starts `false`, `FromText(text, &error)` is
run and `!error` is returned.  Under `Reported` nothing is thrown inside the
`PHANTASMA_TRY` block, so the `PHANTASMA_CATCH` arm (`return false`) is never entered. -/
def Address.IsValidAddress (codec : Base58) (bytes : Buf 33) (text : Str) : Bool :=
  let r := Address.FromText codec bytes text (some false)
  !(r.value.2.getD false)

/-- Modelled from the spec: `PHANTASMA_SHA256_LENGTH` is defined outside `Address.h`; the
hashing collaborator returns thirty-two bytes. -/
def PHANTASMA_SHA256_LENGTH : Nat := 32

/-- The function `FromHash(const Byte* bytes, int length)`: the digest of the input is written to the local
array `hash`, `hash[0] = SystemOpcode`, and the address is built from `hash`.  `SHA256` is the
external hashing collaborator. -/
def Address.FromHash (SHA256 : List Byte → Buf 32) (bytes : List Byte) : Reported Address :=
  let hash := (SHA256 bytes).val
  let hash := hash.set 0 SystemOpcode
  Address.ctor (some hash) PHANTASMA_SHA256_LENGTH

/-- The function `FromHash(const String& str)`: hashes the UTF-8 bytes of the string, which for an 8-bit
string are its characters. -/
def Address.FromHashString (SHA256 : List Byte → Buf 32) (str : Str) : Reported Address :=
  Address.FromHash SHA256 str

/-- The function `FromScript(const ByteArray& script)`: `Address(SHA256(script))`. -/
def Address.FromScript (SHA256 : List Byte → Buf 32) (script : List Byte) : Reported Address :=
  Address.ctorByteArray (SHA256 script).val

/-- The assignment `array[i] = v`.  An index past the end of the array is a write outside the
object and has no defined result. -/
def store (array : List Byte) (i : Nat) (v : Byte) : Option (List Byte) :=
  if i < array.length then some (array.set i v) else none

/-- The two copying loops of `EncodeInterop`: `bytes[i] = c; i++` for every `c` of `source`
in order.  Returns the array and `i` afterwards. -/
def storeAll (bytes : List Byte) (i : Nat) : List Byte → Option (List Byte × Nat)
  | [] => some (bytes, i)
  | c :: rest =>
    match store bytes i c with
    | none => none
    | some bytes1 => storeAll bytes1 (i + 1) rest

/-- The function `EncodeInterop(const String& platformName, const Byte* data, int dataLength)`.  `data` is
the array of `dataLength` bytes the pointer designates; `bytes` is the content at entry of
the uninitialised local array `Byte bytes[PublicKeyLength]`. -/
def Address.EncodeInterop (bytes : Buf 32) (platformName : Str) (data : List Byte) :
    Option (Reported Address) :=
  if platformName.length = 0 then
    some { value := Address.Address0, errors := ["platform name cant be null"] }
  else if platformName.length > MaxPlatformNameLength then
    some { value := Address.Address0, errors := ["platform name is too big"] }
  else
    match store bytes.val 0 42 with
    | none => none
    | some bytes1 =>
      match storeAll bytes1 1 platformName with
      | none => none
      | some (bytes2, i) =>
        match store bytes2 i 42 with
        | none => none
        | some bytes3 =>
          match storeAll bytes3 (i + 1) data with
          | none => none
          | some (bytes4, _) => some (Address.ctor (some bytes4) PublicKeyLength)

/-- The `while (true)` loop of `DecodeInterop`, which scans the key from `i` and collects the
platform name in `sb`.  The outer `none` is an exhausted `fuel`; `some none` is the exit
through "invalid interop address"; `some (some (i, sb))` is the `break` at the `'*'` found at
offset `i`. -/
def scanLoop (a : Address) : Nat → Nat → Str → Option (Option (Nat × Str))
  | 0, _, _ => none
  | fuel + 1, i, sb =>
    if i ≥ PublicKeyLength then some none
    else
      let ch := a.keyAt i
      if ch = 42 then some (some (i, sb))
      else scanLoop a fuel (i + 1) (sb ++ [ch])

/-- The loop `for (n=0; n<expectedDataLength && i+n < PublicKeyLength; n++)
data[n] = _publicKey[i+n];` of `DecodeInterop`.  Returns `n` and the array `data` at exit;
`none` is an exhausted `fuel` or a write past the end of `data`. -/
def copyLoop (a : Address) (i : Nat) (expectedDataLength : Int) :
    Nat → Nat → List Byte → Option (Nat × List Byte)
  | 0, _, _ => none
  | fuel + 1, n, data =>
    if (n : Int) < expectedDataLength ∧ i + n < PublicKeyLength then
      match store data n (a.keyAt (i + n)) with
      | none => none
      | some data1 => copyLoop a i expectedDataLength fuel (n + 1) data1
    else some (n, data)

/-- What a call of `DecodeInterop` leaves behind: the `int` it returns and the contents of
the two output arguments. -/
structure Decoded where
  result : Int
  platformName : Str
  data : List Byte
deriving DecidableEq, Repr

/-- The method `DecodeInterop(String& platformName, Byte* data, int expectedDataLength)`.  `platformName`
and `data` are the contents of the output arguments at entry.  The loops are given
`PublicKeyLength + 1` units of fuel, which they never exhaust (`DecodeInterop_defined`). -/
def Address.DecodeInterop (a : Address) (platformName : Str) (data : List Byte)
    (expectedDataLength : Int) : Option (Reported Decoded) :=
  if expectedDataLength < 0 then
    some { value := ⟨-1, platformName, data⟩, errors := ["invalid data length"] }
  else if expectedDataLength > 27 then
    some { value := ⟨-1, platformName, data⟩, errors := ["data is too large"] }
  else if !a.IsInterop then
    some { value := ⟨-1, platformName, data⟩, errors := ["must be an interop address"] }
  else
    match scanLoop a (PublicKeyLength + 1) 1 [] with
    | none => none
    | some none =>
      some { value := ⟨-1, platformName, data⟩, errors := ["invalid interop address"] }
    | some (some (i, str)) =>
      if str.length = 0 then
        some { value := ⟨-1, platformName, data⟩, errors := ["invalid interop address"] }
      else
        let i := i + 1
        let platformName := str
        if expectedDataLength > 0 then
          match copyLoop a i expectedDataLength (PublicKeyLength + 1) 0 data with
          | none => none
          | some (n, data1) => some { value := ⟨n, platformName, data1⟩, errors := [] }
        else some { value := ⟨0, platformName, data⟩, errors := [] }

/-- The method `ToString()`: the literal "[Null address]" for the null key, and `Text()`
otherwise.  Returns the string and the object afterwards (`Text()` may fill the cache). -/
def Address.ToString (codec : Base58) (a : Address) : Str × Address :=
  if a.publicKey.val == NullKey.val then (PHANTASMA_LITERAL "[Null address]", a)
  else a.Text codec

/-- Modelled from the spec: the `BinaryWriter` that `SerializeData` is instantiated with is
not part of `Address.h`.  Following section 4.6 ("emits the raw 32-byte key verbatim, no
length prefix"), `WriteByteArray` appends the bytes of the array to the stream. -/
def WriteByteArray (writer : List Byte) (bytes : Buf 32) : List Byte := writer ++ bytes.val

/-- Modelled from the spec: the `BinaryReader` that `UnserializeData` is instantiated with
is not part of `Address.h`.  Following section 4.6 ("reads exactly 32 bytes into `key`"; an
underrun is the reader's affair), `ReadByteArray` takes the next thirty-two bytes of the
stream into the array and returns them with the rest of the stream; `none` is an
underrun. -/
def ReadByteArray (reader : List Byte) : Option (Buf 32 × List Byte) :=
  if h : 32 ≤ reader.length then
    some (⟨reader.take 32, by simp [List.length_take]; omega⟩, reader.drop 32)
  else none

/-- The method `SerializeData(BinaryWriter& writer)`: `writer.WriteByteArray(_publicKey)`.
Returns the stream afterwards. -/
def Address.SerializeData (a : Address) (writer : List Byte) : List Byte :=
  WriteByteArray writer a.publicKey

/-- The method `UnserializeData(BinaryReader& reader)`: `reader.ReadByteArray(_publicKey)`
and `_text = ""`; `_opcode` is not assigned.  Returns the object and the stream
afterwards. -/
def Address.UnserializeData (a : Address) (reader : List Byte) : Option (Address × List Byte) :=
  match ReadByteArray reader with
  | none => none
  | some (key, rest) => some ({ a with publicKey := key, text := [] }, rest)

/-- The function `FromWIF(const Char* wif, int wifStringLength)`.  `wif` is `none` for a null
pointer and otherwise the characters in front of the terminating NUL.
`CheckDecodeSecure` is `Base58::CheckDecodeSecure` with the 34-byte output array as its first
argument, returning its `int` result and the array afterwards; `PublicKeyFromSeed` is
`Ed25519::PublicKeyFromSeed`, which fills the local array `publicKey` from the 32-byte seed;
both come from outside `Address.h` and are parameters.  `data` is the content of
`PinnedBytes<34> data` at entry. -/
def Address.FromWIFPtr (CheckDecodeSecure : Buf 34 → Str → Int × Buf 34)
    (PublicKeyFromSeed : List Byte → Buf 32) (data : Buf 34) (wif : Option Str)
    (wifStringLength : Int) : Reported Address :=
  match wif with
  | none => { value := Address.Address0, errors := ["WIF required"] }
  | some w =>
    if w.getD 0 0 = 0 ∨ wifStringLength ≤ 0 then
      { value := Address.Address0, errors := ["WIF required"] }
    else
      let r := CheckDecodeSecure data (w.take wifStringLength.toNat)
      let size : Int := r.1
      let data := r.2
      if size ≠ 34 ∨ data.val.getD 0 0 ≠ 128 ∨ data.val.getD 33 0 ≠ 1 then
        { value := Address.Address0, errors := ["Invalid WIF format"] }
      else
        let publicKey := PublicKeyFromSeed ((data.val.drop 1).take 32)
        Address.ctor (some publicKey.val) 32

/-- The function `FromWIF(const SecureString& wif)`: delegates with `wif.c_str()` and
`wif.length()`. -/
def Address.FromWIF (CheckDecodeSecure : Buf 34 → Str → Int × Buf 34)
    (PublicKeyFromSeed : List Byte → Buf 32) (data : Buf 34) (wif : Str) : Reported Address :=
  Address.FromWIFPtr CheckDecodeSecure PublicKeyFromSeed data (some wif) wif.length

/-! ### A concrete codec

The standard Base58 encoding (big-endian base conversion over the Bitcoin alphabet, one `'1'`
for every leading zero byte) as an instance of the codec interface.  It serves to instantiate
the statements below on actual addresses. -/

/-- The Base58 alphabet. -/
def base58Alphabet : List Byte :=
  PHANTASMA_LITERAL "123456789ABCDEFGHJKLMNPQRSTUVWXYZabcdefghijkmnopqrstuvwxyz"

/-- The number that a digit sequence denotes in `base`, most significant digit first. -/
def digitsToNat (digits : List Nat) (base : Nat) : Nat :=
  digits.foldl (fun acc d => acc * base + d) 0

/-- The digits of `n` in `base`, most significant first, in front of `acc`
(at most `fuel` of them). -/
def natToDigits (base : Nat) : Nat → Nat → List Nat → List Nat
  | 0, _, acc => acc
  | fuel + 1, n, acc =>
    if n = 0 then acc else natToDigits base fuel (n / base) (n % base :: acc)

/-- Standard Base58 encoding of a byte sequence. -/
def standardEncode (bs : List Byte) : Str :=
  let zeros := (bs.takeWhile fun b => b = 0).length
  List.replicate zeros (base58Alphabet.getD 0 0) ++
    (natToDigits 58 (2 * bs.length) (digitsToNat (bs.map Fin.val) 256) []).map
      fun d => base58Alphabet.getD d 0

/-- Standard Base58 decoding into an output array of `n` bytes: returns the number of bytes
decoded and writes them at the start of the array; `0` for a character outside the alphabet
and `-1` when the array is too small, the array being left as it was. -/
def standardDecode {n : Nat} (out : Buf n) (text : Str) : Int × Buf n :=
  if text.all fun c => base58Alphabet.contains c then
    let digits := text.map fun c => base58Alphabet.indexOf c
    let zeros := (text.takeWhile fun c => c = base58Alphabet.getD 0 0).length
    let body := natToDigits 256 text.length (digitsToNat digits 58) []
    let bytes : List Byte := List.replicate zeros 0 ++ body.map fun d => (Fin.ofNat d : Fin 256)
    if h : bytes.length ≤ n then
      (bytes.length, ⟨bytes ++ out.val.drop bytes.length, by
        have := out.property
        simp only [List.length_append, List.length_drop]; omega⟩)
    else (-1, out)
  else (0, out)

/-- The standard Base58 codec. -/
def standardBase58 : Base58 := { Encode := standardEncode, Decode := standardDecode }

/-! ### A concrete hash

SHA-256 (FIPS 180-4) on words kept in `Nat` and reduced modulo `2^32`, as an instance of the
hashing collaborator.  It serves to evaluate `FromHash` and `FromScript` on actual inputs. -/

/-- The round constants of SHA-256. -/
def sha256K : List Nat :=
  [1116352408, 1899447441, 3049323471, 3921009573, 961987163, 1508970993,
  2453635748, 2870763221, 3624381080, 310598401, 607225278, 1426881987,
  1925078388, 2162078206, 2614888103, 3248222580, 3835390401, 4022224774,
  264347078, 604807628, 770255983, 1249150122, 1555081692, 1996064986,
  2554220882, 2821834349, 2952996808, 3210313671, 3336571891, 3584528711,
  113926993, 338241895, 666307205, 773529912, 1294757372, 1396182291,
  1695183700, 1986661051, 2177026350, 2456956037, 2730485921, 2820302411,
  3259730800, 3345764771, 3516065817, 3600352804, 4094571909, 275423344,
  430227734, 506948616, 659060556, 883997877, 958139571, 1322822218,
  1537002063, 1747873779, 1955562222, 2024104815, 2227730452, 2361852424,
  2428436474, 2756734187, 3204031479, 3329325298]

/-- The initial hash value of SHA-256. -/
def sha256H0 : List Nat :=
  [1779033703, 3144134277, 1013904242, 2773480762,
  1359893119, 2600822924, 528734635, 1541459225]

/-- Reduction to a 32-bit word. -/
def word32 (x : Nat) : Nat := x % 4294967296

/-- Rotation of a 32-bit word to the right by `n` bits. -/
def rotateRight (x n : Nat) : Nat := word32 ((x >>> n) ||| (x <<< (32 - n)))

/-- The `n` low-order bytes of `x`, most significant first. -/
def bigEndian : Nat → Nat → List Nat
  | 0, _ => []
  | n + 1, x => (x >>> (8 * n)) % 256 :: bigEndian n x

/-- The message followed by the bit `1`, zero bits up to 56 modulo 64 bytes, and the bit
length of the message in eight bytes. -/
def sha256Pad (message : List Nat) : List Nat :=
  message ++ 128 :: List.replicate ((119 - message.length % 64) % 64) 0
    ++ bigEndian 8 (8 * message.length)

/-- The first `n` big-endian 32-bit words of a byte sequence. -/
def wordsOf : Nat → List Nat → List Nat
  | 0, _ => []
  | n + 1, bs => digitsToNat (bs.take 4) 256 :: wordsOf n (bs.drop 4)

/-- Extension of the message schedule by `n` words; `w` holds the words so far, last
first. -/
def sha256Schedule : Nat → List Nat → List Nat
  | 0, w => w
  | n + 1, w =>
    let w2 := w.getD 1 0
    let w15 := w.getD 14 0
    let s0 := rotateRight w15 7 ^^^ rotateRight w15 18 ^^^ (w15 >>> 3)
    let s1 := rotateRight w2 17 ^^^ rotateRight w2 19 ^^^ (w2 >>> 10)
    sha256Schedule n (word32 (s1 + w.getD 6 0 + s0 + w.getD 15 0) :: w)

/-- One round of the compression function on the working variables `a … h`, for a round
constant and a schedule word. -/
def sha256Round (state : List Nat) (kw : Nat × Nat) : List Nat :=
  match state with
  | [a, b, c, d, e, f, g, h] =>
    let sigma1 := rotateRight e 6 ^^^ rotateRight e 11 ^^^ rotateRight e 25
    let choice := (e &&& f) ^^^ ((4294967295 - e) &&& g)
    let t1 := word32 (h + sigma1 + choice + kw.1 + kw.2)
    let sigma0 := rotateRight a 2 ^^^ rotateRight a 13 ^^^ rotateRight a 22
    let majority := (a &&& b) ^^^ (a &&& c) ^^^ (b &&& c)
    [word32 (t1 + word32 (sigma0 + majority)), a, b, c, word32 (d + t1), e, f, g]
  | _ => state

/-- The compression of one 64-byte block into the hash value. -/
def sha256Block (hash : List Nat) (block : List Nat) : List Nat :=
  let w := (sha256Schedule 48 (wordsOf 16 block).reverse).reverse
  (hash.zip ((sha256K.zip w).foldl sha256Round hash)).map fun p => word32 (p.1 + p.2)

/-- The compression of `n` consecutive blocks. -/
def sha256Blocks : Nat → List Nat → List Nat → List Nat
  | 0, hash, _ => hash
  | n + 1, hash, bs => sha256Blocks n (sha256Block hash (bs.take 64)) (bs.drop 64)

/-- SHA-256 of a byte sequence, as thirty-two byte values. -/
def sha256Digest (message : List Nat) : List Nat :=
  (sha256Blocks ((sha256Pad message).length / 64) sha256H0 (sha256Pad message)).flatMap
    (bigEndian 4)

/-- SHA-256 as a hashing collaborator (`copyKey` only fixes the length, thirty-two, in the
type). -/
def standardSHA256 (message : List Byte) : Buf 32 :=
  copyKey ((sha256Digest (message.map Fin.val)).map fun b => (Fin.ofNat b : Fin 256))

/-- A sample key: thirty-two bytes `1` (a user key: neither null nor marked `'!'` or `'*'`). -/
def sampleUserKey : Buf 32 := ⟨List.replicate 32 1, by simp⟩

/-- A sample content of an uninitialised 33-byte array. -/
def sampleStack33 : Buf 33 := ⟨List.replicate 33 9, by simp⟩

/-- A sample content of an uninitialised 32-byte array. -/
def sampleStack32 : Buf 32 := ⟨List.replicate 32 7, by simp⟩

/-- A second sample content of an uninitialised 32-byte array: all zero. -/
def sampleStackZero : Buf 32 := ⟨List.replicate 32 0, by simp⟩

/-- A sample key that starts with `'!'`, followed by thirty-one bytes `1`. -/
def sampleSystemKey : Buf 32 := ⟨33 :: List.replicate 31 1, by simp⟩

/-- A sample interop key: `'*'`, "neo", `'*'`, the payload `1, 2, 3`, and twenty-four
bytes `7`. -/
def sampleInterop : Address :=
  { opcode := 85,
    publicKey := ⟨42 :: 110 :: 101 :: 111 :: 42 :: 1 :: 2 :: 3 :: List.replicate 24 7, by simp⟩,
    text := [] }

/-- The condition under which `FromText` takes its error exit on `text`: the length is not
`TextLength`, or `Base58::Decode` does not return `PublicKeyLength + 1`, or the first decoded
byte is none of the three opcodes. -/
def FromTextFails (codec : Base58) (bytes : Buf 33) (text : Str) : Prop :=
  text.length ≠ 45 ∨ (codec.Decode bytes text).1 ≠ 33 ∨
    ((codec.Decode bytes text).2.val.getD 0 0 ≠ 75 ∧
     (codec.Decode bytes text).2.val.getD 0 0 ≠ 85 ∧
     (codec.Decode bytes text).2.val.getD 0 0 ≠ 102)

instance (codec : Base58) (bytes : Buf 33) (text : Str) :
    Decidable (FromTextFails codec bytes text) := by
  unfold FromTextFails; infer_instance

/-! ## Properties -/

/-! ### The constructor -/

theorem copyKey_val (p : List Byte) (h : p.length = 32) : (copyKey p).val = p := by
  simp [copyKey, List.take_append_of_le_length, h]

theorem copyKey_buf (k : Buf 32) : copyKey k.val = k :=
  Subtype.ext (copyKey_val k.val k.property)

theorem ctor_eq (p : List Byte) :
    Address.ctor (some p) 32 =
      { value := { opcode := 85, publicKey := copyKey p, text := [] }, errors := [] } := by
  simp [Address.ctor, PublicKeyLength, memberAsCondition, SystemOpcode]

theorem ctor_key (k : Buf 32) : (Address.ctor (some k.val) 32).value.publicKey = k := by
  rw [ctor_eq]; exact copyKey_buf k

/-! ### Text form -/

theorem strlen_le (text : Str) : PHANTASMA_STRLEN text ≤ text.length := by
  induction text with
  | nil => simp [PHANTASMA_STRLEN]
  | cons c rest ih =>
    simp only [PHANTASMA_STRLEN, List.length_cons]
    split <;> omega

/-- The result of `FromText` on a text of `TextLength` characters, as a function of what `Decode` returns. -/
theorem FromText_len45 (codec : Base58) (bytes : Buf 33) (text : Str)
    (out_error : Option Bool) (hlen : text.length = 45) (n : Int) (op : Byte) (rest : List Byte)
    (hrest : (op :: rest).length = 33)
    (hr : codec.Decode bytes text = (n, ⟨op :: rest, hrest⟩)) :
    Address.FromText codec bytes text out_error =
      if n ≠ 33 ∨ (op ≠ 75 ∧ op ≠ 85 ∧ op ≠ 102) then
        { value := (Address.Address0, out_error.map fun _ => true),
          errors := (if n ≠ 33 then ["Invalid address encoding"] else []) ++
            (if op ≠ 75 ∧ op ≠ 85 ∧ op ≠ 102 then ["Invalid address opcode"] else []) }
      else
        { value := ((Address.ctor (some rest) 32).value, out_error), errors := [] } := by
  have htake : List.take 45 text = text := List.take_of_length_le (by omega)
  have e1 : (if (text.length : Int) = 0 then (PHANTASMA_STRLEN text : Int) else text.length)
      = 45 := by
    rw [hlen]; rfl
  unfold Address.FromText Address.FromTextPtr
  simp only [e1, TextLength, PublicKeyLength, UserOpcode, SystemOpcode, InteropOpcode]
  have e2 : ((45 : Int).toNat) = 45 := rfl
  simp only [e2, htake, hr]
  by_cases hn : n = 33
  · subst hn
    by_cases hop : op ≠ 75 ∧ op ≠ 85 ∧ op ≠ 102
    · simp [hop]
    · simp [hop, ctor_eq]
  · simp [hn]

theorem FromText_of_fails (codec : Base58) (bytes : Buf 33) (text : Str)
    (out_error : Option Bool) (h : FromTextFails codec bytes text) :
    (Address.FromText codec bytes text out_error).value =
        (Address.Address0, out_error.map fun _ => true) ∧
      (Address.FromText codec bytes text out_error).errors ≠ [] := by
  by_cases hlen : text.length = 45
  · unfold FromTextFails at h
    generalize hr : codec.Decode bytes text = r at h
    obtain ⟨n, l, hl⟩ := r
    cases l with
    | nil => simp at hl
    | cons op rest =>
      rw [FromText_len45 codec bytes text out_error hlen n op rest hl hr]
      simp only [List.getD_cons_zero] at h
      rcases h with h | h | h
      · exact absurd hlen h
      · simp [h]
      · simp [h]
  · have hs := strlen_le text
    unfold Address.FromText Address.FromTextPtr
    by_cases h0 : text.length = 0
    · have h1 : PHANTASMA_STRLEN text = 0 := by omega
      simp [h0, h1, TextLength]
    · have h1 : ¬ ((text.length : Int) = 0) := by omega
      have h2 : ¬ ((text.length : Int) = 45) := by omega
      simp [h1, h2, TextLength]

theorem FromText_of_not_fails (codec : Base58) (bytes : Buf 33) (text : Str)
    (out_error : Option Bool) (h : ¬ FromTextFails codec bytes text) :
    Address.FromText codec bytes text out_error =
      { value := ((Address.ctor (some ((codec.Decode bytes text).2.val.drop 1)) 32).value,
                   out_error),
        errors := [] } := by
  unfold FromTextFails at h
  generalize hr : codec.Decode bytes text = r at h
  obtain ⟨n, l, hl⟩ := r
  cases l with
  | nil => simp at hl
  | cons op rest =>
    simp only [List.getD_cons_zero] at h
    push_neg at h
    rw [FromText_len45 codec bytes text out_error h.1 n op rest hl hr]
    have h3 : ¬ (n ≠ 33 ∨ (op ≠ 75 ∧ op ≠ 85 ∧ op ≠ 102)) := by
      intro hc
      rcases hc with hc | hc
      · exact hc h.2.1
      · exact hc.2.2 (h.2.2 hc.1 hc.2.1)
    simp [h3]

theorem Text_fresh (codec : Base58) (a : Address) (h : a.text = []) :
    a.Text codec = (codec.Encode (a.opcode :: a.publicKey.val),
      { a with text := codec.Encode (a.opcode :: a.publicKey.val) }) := by
  simp [Address.Text, h]

/-- A second call of `Text()` returns what the first call returned. -/
theorem Text_again (codec : Base58) (a : Address) (h : a.text = []) :
    ((a.Text codec).2.Text codec).1 = (a.Text codec).1 := by
  rw [Text_fresh codec a h]
  simp only [Address.Text]
  split
  · rfl
  · rfl

theorem built_text_empty (a : Address)
    (h : a = Address.Address0 ∨ ∃ k : Buf 32, a = (Address.ctor (some k.val) 32).value) :
    a.text = [] := by
  rcases h with h | ⟨k, h⟩
  · rw [h]; rfl
  · rw [h, ctor_eq]

theorem opEq_of_key (a b : Address) (h : a.publicKey = b.publicKey) : a.opEq b = true := by
  simp [Address.opEq, h]

/-- The result of `FromText` applied to the encoding of `op :: key`, for a codec that decodes this text back
to these bytes: the error exit is taken exactly when `op` is none of the three opcodes. -/
theorem FromText_Encode (codec : Base58) (bytes : Buf 33) (out_error : Option Bool)
    (op : Byte) (key : Buf 32)
    (hlen : (codec.Encode (op :: key.val)).length = 45)
    (hdec : (codec.Decode bytes (codec.Encode (op :: key.val))).1 = 33 ∧
      (codec.Decode bytes (codec.Encode (op :: key.val))).2.val = op :: key.val) :
    (FromTextFails codec bytes (codec.Encode (op :: key.val)) ↔ (op ≠ 75 ∧ op ≠ 85 ∧ op ≠ 102)) ∧
    (¬ FromTextFails codec bytes (codec.Encode (op :: key.val)) →
      (Address.FromText codec bytes (codec.Encode (op :: key.val)) out_error).value.1.publicKey
        = key) := by
  have hf : FromTextFails codec bytes (codec.Encode (op :: key.val)) ↔
      (op ≠ 75 ∧ op ≠ 85 ∧ op ≠ 102) := by
    unfold FromTextFails
    rw [hdec.2]
    simp [hlen, hdec.1]
  refine ⟨hf, fun hnf => ?_⟩
  rw [FromText_of_not_fails codec bytes _ out_error hnf, hdec.2]
  exact ctor_key key

/-- Claim C1. Text round trip.  Let `a` be the default-constructed address or an address built
from a 32-byte key, and let the codec encode the 33 bytes `[opcode] ++ key` of `a` as 45
characters which `Decode` turns back into these 33 bytes.  Then `FromText(a.Text()) == a`;
the same holds for the object with its text cache filled, whose `Text()` returns the cached
string. -/
theorem text_round_trip (codec : Base58) (bytes : Buf 33) (out_error : Option Bool)
    (a : Address)
    (hbuilt : a = Address.Address0 ∨ ∃ k : Buf 32, a = (Address.ctor (some k.val) 32).value)
    (hlen : (codec.Encode (a.opcode :: a.publicKey.val)).length = 45)
    (hdec : (codec.Decode bytes (codec.Encode (a.opcode :: a.publicKey.val))).1 = 33 ∧
      (codec.Decode bytes (codec.Encode (a.opcode :: a.publicKey.val))).2.val
        = a.opcode :: a.publicKey.val) :
    (Address.FromText codec bytes (a.Text codec).1 out_error).value.1.opEq a = true ∧
    (Address.FromText codec bytes ((a.Text codec).2.Text codec).1 out_error).value.1.opEq
      (a.Text codec).2 = true := by
  have ht := built_text_empty a hbuilt
  have hmain : (Address.FromText codec bytes (a.Text codec).1 out_error).value.1.opEq a
      = true := by
    rw [Text_fresh codec a ht]
    obtain ⟨hf, hk⟩ := FromText_Encode codec bytes out_error a.opcode a.publicKey hlen hdec
    by_cases hfail : FromTextFails codec bytes (codec.Encode (a.opcode :: a.publicKey.val))
    · rw [(FromText_of_fails codec bytes _ out_error hfail).1]
      rcases hbuilt with h | ⟨k, h⟩
      · rw [h]; rfl
      · exfalso
        have hop : a.opcode = 85 := by rw [h, ctor_eq]
        exact (hf.1 hfail).2.1 hop
    · exact opEq_of_key _ _ (hk hfail)
  refine ⟨hmain, ?_⟩
  rw [Text_again codec a ht]
  have hkey : (a.Text codec).2.publicKey = a.publicKey := by rw [Text_fresh codec a ht]
  simpa [Address.opEq, hkey] using hmain

/-- Instance of `text_round_trip`: the address built from `sampleUserKey`, under the standard
Base58 codec. -/
theorem text_round_trip_witness :
    (Address.FromText standardBase58 sampleStack33
      ((Address.ctor (some sampleUserKey.val) 32).value.Text standardBase58).1
        none).value.1.opEq (Address.ctor (some sampleUserKey.val) 32).value = true ∧
    (Address.FromText standardBase58 sampleStack33
      (((Address.ctor (some sampleUserKey.val) 32).value.Text standardBase58).2.Text
        standardBase58).1 none).value.1.opEq
      ((Address.ctor (some sampleUserKey.val) 32).value.Text standardBase58).2 = true :=
  text_round_trip standardBase58 sampleStack33 none
    (Address.ctor (some sampleUserKey.val) 32).value
    (Or.inr ⟨sampleUserKey, rfl⟩) (by decide) (by decide)

/-- The text of an address built from a 32-byte key is accepted by `IsValidAddress`. -/
theorem IsValidAddress_key_text (codec : Base58) (bytes : Buf 33) (k : Buf 32)
    (hlen : (codec.Encode (85 :: k.val)).length = 45)
    (hdec : (codec.Decode bytes (codec.Encode (85 :: k.val))).1 = 33 ∧
      (codec.Decode bytes (codec.Encode (85 :: k.val))).2.val = 85 :: k.val) :
    Address.IsValidAddress codec bytes
      ((Address.ctor (some k.val) 32).value.Text codec).1 = true := by
  have hnf : ¬ FromTextFails codec bytes (codec.Encode (85 :: k.val)) := by
    rw [(FromText_Encode codec bytes none 85 k hlen hdec).1]
    decide
  rw [ctor_eq, Text_fresh _ _ rfl, copyKey_buf]
  simp [Address.IsValidAddress, FromText_of_not_fails codec bytes _ _ hnf]

/-- Claim C2. At the default-constructed address the code departs from the claim: `Text()`
encodes the member initialiser `74` as the opcode, `FromText` rejects that opcode, and
`IsValidAddress(Address().Text())` is `false` (for every codec that encodes these 33 bytes
as 45 characters and decodes them back). -/
theorem IsValidAddress_default_text (codec : Base58) (bytes : Buf 33)
    (hlen : (codec.Encode (74 :: NullKey.val)).length = 45)
    (hdec : (codec.Decode bytes (codec.Encode (74 :: NullKey.val))).1 = 33 ∧
      (codec.Decode bytes (codec.Encode (74 :: NullKey.val))).2.val = 74 :: NullKey.val) :
    Address.IsValidAddress codec bytes (Address.Address0.Text codec).1 = false := by
  have hf : FromTextFails codec bytes (codec.Encode (74 :: NullKey.val)) := by
    rw [(FromText_Encode codec bytes none 74 NullKey hlen hdec).1]
    decide
  rw [Text_fresh _ _ rfl]
  show Address.IsValidAddress codec bytes (codec.Encode (74 :: NullKey.val)) = false
  simp [Address.IsValidAddress, (FromText_of_fails codec bytes _ (some false) hf).1]

/-- Instance of `IsValidAddress_default_text` under the standard Base58 codec. -/
theorem IsValidAddress_default_text_witness :
    Address.IsValidAddress standardBase58 sampleStack33
      (Address.Address0.Text standardBase58).1 = false :=
  IsValidAddress_default_text standardBase58 sampleStack33 (by decide) (by decide)

/-- Claim C3. What the constructor does in place of the claimed classification: for every
32-byte key the stored opcode is `SystemOpcode`, so `Text()` is the encoding of
`[85] ++ key`.  At `sampleUserKey`, a user key, the claim asks for the encoding of
`[75] ++ key`, which under the standard codec is a different string. -/
theorem ctor_text_opcode :
    (∀ (codec : Base58) (k : Buf 32),
      (Address.ctor (some k.val) 32).value.opcode = 85 ∧
      ((Address.ctor (some k.val) 32).value.Text codec).1 = codec.Encode (85 :: k.val)) ∧
    (Address.ctor (some sampleUserKey.val) 32).value.IsUser = true ∧
    ((Address.ctor (some sampleUserKey.val) 32).value.Text standardBase58).1
      ≠ standardBase58.Encode (UserOpcode :: sampleUserKey.val) := by
  refine ⟨fun codec k => ?_, by decide, by decide⟩
  rw [ctor_eq, Text_fresh _ _ rfl, copyKey_buf]
  exact ⟨rfl, rfl⟩

/-- Claim C4. `FromText` reports an error and returns the null address exactly when the text
is not 45 characters long, or `Decode` does not return 33, or the first decoded byte is none
of 75, 85, 102 (and then a non-null `out_error` is set); otherwise it reports nothing,
leaves `out_error` as it was and returns the address whose key is the last 32 decoded bytes.
`IsValidAddress` returns `false` in exactly the error cases; it is a total function. -/
theorem FromText_error_exactly (codec : Base58) (bytes : Buf 33) (text : Str)
    (out_error : Option Bool) :
    (((Address.FromText codec bytes text out_error).errors ≠ [] ∧
        (Address.FromText codec bytes text out_error).value.1 = Address.Address0 ∧
        (Address.FromText codec bytes text out_error).value.2 = out_error.map fun _ => true) ↔
      (text.length ≠ 45 ∨ (codec.Decode bytes text).1 ≠ 33 ∨
        ((codec.Decode bytes text).2.val.getD 0 0 ≠ 75 ∧
         (codec.Decode bytes text).2.val.getD 0 0 ≠ 85 ∧
         (codec.Decode bytes text).2.val.getD 0 0 ≠ 102))) ∧
    (((Address.FromText codec bytes text out_error).errors = [] ∧
        (Address.FromText codec bytes text out_error).value.1.publicKey.val
          = (codec.Decode bytes text).2.val.drop 1 ∧
        (Address.FromText codec bytes text out_error).value.2 = out_error) ↔
      ¬ (text.length ≠ 45 ∨ (codec.Decode bytes text).1 ≠ 33 ∨
        ((codec.Decode bytes text).2.val.getD 0 0 ≠ 75 ∧
         (codec.Decode bytes text).2.val.getD 0 0 ≠ 85 ∧
         (codec.Decode bytes text).2.val.getD 0 0 ≠ 102))) ∧
    (Address.IsValidAddress codec bytes text = false ↔
      (text.length ≠ 45 ∨ (codec.Decode bytes text).1 ≠ 33 ∨
        ((codec.Decode bytes text).2.val.getD 0 0 ≠ 75 ∧
         (codec.Decode bytes text).2.val.getD 0 0 ≠ 85 ∧
         (codec.Decode bytes text).2.val.getD 0 0 ≠ 102))) := by
  change (_ ↔ FromTextFails codec bytes text) ∧ (_ ↔ ¬ FromTextFails codec bytes text) ∧
    (_ ↔ FromTextFails codec bytes text)
  by_cases hf : FromTextFails codec bytes text
  · have h1 := FromText_of_fails codec bytes text out_error hf
    have h2 := FromText_of_fails codec bytes text (some false) hf
    refine ⟨⟨fun _ => hf, fun _ => ⟨h1.2, by rw [h1.1], by rw [h1.1]⟩⟩,
      ⟨fun h => absurd h.1 h1.2, fun h => absurd hf h⟩, ⟨fun _ => hf, fun _ => ?_⟩⟩
    simp [Address.IsValidAddress, h2.1]
  · have h1 := FromText_of_not_fails codec bytes text out_error hf
    have h2 := FromText_of_not_fails codec bytes text (some false) hf
    have hlen : ((codec.Decode bytes text).2.val.drop 1).length = 32 := by
      simp [(codec.Decode bytes text).2.property]
    refine ⟨⟨fun h => absurd (by rw [h1]) h.1, fun h => absurd h hf⟩,
      ⟨fun _ => hf, fun _ => ⟨by rw [h1], ?_, by rw [h1]⟩⟩, ⟨fun h => ?_, fun h => absurd h hf⟩⟩
    · rw [h1, ctor_eq]
      exact copyKey_val _ hlen
    · simp [Address.IsValidAddress, h2] at h

/-! ### Addresses derived from a hash -/

theorem set_zero_val (k : Buf 32) (v : Byte) :
    ∃ rest : List Byte, k.val.set 0 v = v :: rest ∧ (v :: rest).length = 32 := by
  obtain ⟨l, hl⟩ := k
  cases l with
  | nil => simp at hl
  | cons b rest => exact ⟨rest, rfl, by simpa using hl⟩

theorem FromHash_eq (SHA256 : List Byte → Buf 32) (bytes : List Byte) :
    (Address.FromHash SHA256 bytes).errors = [] ∧
    (Address.FromHash SHA256 bytes).value.publicKey.val = (SHA256 bytes).val.set 0 85 := by
  unfold Address.FromHash
  simp only [PHANTASMA_SHA256_LENGTH, SystemOpcode, Nat.cast_ofNat]
  rw [ctor_eq]
  exact ⟨rfl, copyKey_val _ (by simp [(SHA256 bytes).property])⟩

theorem FromScript_eq (SHA256 : List Byte → Buf 32) (script : List Byte) :
    (Address.FromScript SHA256 script).errors = [] ∧
    (Address.FromScript SHA256 script).value.publicKey = SHA256 script := by
  unfold Address.FromScript Address.ctorByteArray
  rw [(SHA256 script).property]
  simp only [Nat.cast_ofNat]
  rw [ctor_eq]
  exact ⟨rfl, copyKey_buf _⟩

/-- Claim C5. What `FromHash` produces, for every hash function and every input: the
constructor reports nothing, byte 0 of the key is `SystemOpcode` (85), and since `IsSystem()`
tests byte 0 against `'!'` (33) the address is not a system address; it is classified as a
user address.  In particular this holds for SHA-256 and the input "hello". -/
theorem FromHash_not_system :
    (∀ (SHA256 : List Byte → Buf 32) (bytes : List Byte),
      (Address.FromHash SHA256 bytes).errors = [] ∧
      (Address.FromHash SHA256 bytes).value.keyAt 0 = 85 ∧
      (Address.FromHash SHA256 bytes).value.IsSystem = false ∧
      (Address.FromHash SHA256 bytes).value.IsUser = true) ∧
    (Address.FromHashString standardSHA256 (PHANTASMA_LITERAL "hello")).value.IsSystem
      = false := by
  refine ⟨fun SHA256 bytes => ?_, by decide!⟩
  obtain ⟨he, hk⟩ := FromHash_eq SHA256 bytes
  obtain ⟨rest, hset, _⟩ := set_zero_val (SHA256 bytes) 85
  rw [hset] at hk
  have h0 : (Address.FromHash SHA256 bytes).value.keyAt 0 = 85 := by
    simp [Address.keyAt, hk]
  have hn : (Address.FromHash SHA256 bytes).value.IsNull = false := by
    simp [Address.IsNull, hk, NullKey, List.replicate]
  refine ⟨he, h0, ?_, ?_⟩
  · simp [Address.IsSystem, h0, hn]
  · simp [Address.IsUser, Address.IsSystem, Address.IsInterop, h0, hn]

/-- Claim C6 fails on the code: for SHA-256 and the empty script, `FromScript` and `FromHash`
return addresses that `operator==` tells apart (byte 0 of the digest is 227; `FromHash`
replaces it by 85, `FromScript` keeps it). -/
theorem FromScript_ne_FromHash_empty :
    (Address.FromScript standardSHA256 []).value.opEq
      (Address.FromHash standardSHA256 []).value = false ∧
    (Address.FromScript standardSHA256 []).value.keyAt 0 = 227 ∧
    (Address.FromHash standardSHA256 []).value.keyAt 0 = 85 := by
  decide!

/-- Claim C6, amended.  For every byte sequence `s`: `FromScript(s)` has the digest of `s` as
its key, unchanged; `FromHash(s)` has the digest with byte 0 replaced by 85; the two keys
agree at every offset from 1 on, and `FromScript(s) == FromHash(s)` holds exactly when byte 0
of the digest is 85. -/
theorem FromScript_vs_FromHash (SHA256 : List Byte → Buf 32) (s : List Byte) :
    (Address.FromScript SHA256 s).value.publicKey = SHA256 s ∧
    (Address.FromHash SHA256 s).value.publicKey.val = (SHA256 s).val.set 0 85 ∧
    (Address.FromScript SHA256 s).value.publicKey.val.drop 1
      = (Address.FromHash SHA256 s).value.publicKey.val.drop 1 ∧
    ((Address.FromScript SHA256 s).value.opEq (Address.FromHash SHA256 s).value = true ↔
      (SHA256 s).val.getD 0 0 = 85) := by
  obtain ⟨_, hs⟩ := FromScript_eq SHA256 s
  obtain ⟨_, hh⟩ := FromHash_eq SHA256 s
  refine ⟨hs, hh, ?_, ?_⟩
  · rw [hs, hh]
    obtain ⟨l, hl⟩ := SHA256 s
    cases l with
    | nil => simp at hl
    | cons b rest => simp
  · simp only [Address.opEq, hs, hh]
    obtain ⟨l, hl⟩ := SHA256 s
    cases l with
    | nil => simp at hl
    | cons b rest =>
      simp only [List.set_cons_zero, List.getD_cons_zero, beq_iff_eq, List.cons.injEq, and_true]

/-! ### Interop addresses -/

/-- A store right behind the part `w` of the array written so far. -/
theorem store_behind (w r : List Byte) (v : Byte) (i : Nat) (hi : i = w.length)
    (hr : 0 < r.length) : store (w ++ r) i v = some ((w ++ [v]) ++ r.drop 1) := by
  subst hi
  cases r with
  | nil => simp at hr
  | cons b rest => simp [store]

theorem storeAll_behind (cs : List Byte) : ∀ (w r : List Byte) (i : Nat), i = w.length →
    cs.length ≤ r.length →
    storeAll (w ++ r) i cs = some ((w ++ cs) ++ r.drop cs.length, i + cs.length) := by
  induction cs with
  | nil => intro w r i _ _; simp [storeAll]
  | cons c rest ih =>
    intro w r i hi h
    simp only [List.length_cons] at h
    simp only [storeAll, store_behind w r c i hi (by omega)]
    rw [ih (w ++ [c]) (r.drop 1) (i + 1) (by simp [hi]) (by simp; omega)]
    simp only [List.append_assoc, List.singleton_append, List.drop_drop, List.length_cons,
      Option.some.injEq, Prod.mk.injEq]
    constructor
    · rw [Nat.add_comm 1 rest.length]
    · omega

theorem storeAll_some (cs : List Byte) : ∀ (bytes : List Byte) (i : Nat) (r : List Byte × Nat),
    storeAll bytes i cs = some r → cs = [] ∨ i + cs.length ≤ bytes.length := by
  induction cs with
  | nil => intro _ _ _ _; exact Or.inl rfl
  | cons c rest ih =>
    intro bytes i r h
    right
    simp only [storeAll, store] at h
    by_cases hi : i < bytes.length
    · simp only [hi, if_true] at h
      rcases ih _ _ _ h with h1 | h1
      · subst h1; simp; omega
      · simp at h1 ⊢; omega
    · simp [hi] at h

/-- The key that `EncodeInterop` builds: `'*'`, the platform name, `'*'`, the payload, and
then what the local array held before. -/
theorem EncodeInterop_eq (bytes : Buf 32) (p : Str) (d : List Byte)
    (hp1 : 1 ≤ p.length) (hp2 : p.length ≤ 10) (hd : 2 + p.length + d.length ≤ 32) :
    ∃ a : Address, Address.EncodeInterop bytes p d = some { value := a, errors := [] } ∧
      a.opcode = 85 ∧ a.text = [] ∧
      a.publicKey.val = 42 :: p ++ 42 :: d ++ bytes.val.drop (2 + p.length + d.length) := by
  obtain ⟨l, hl⟩ := bytes
  have h0 : p.length ≠ 0 := by omega
  have h10 : ¬ p.length > MaxPlatformNameLength := by simp [MaxPlatformNameLength]; omega
  have s1 : store l 0 42 = some ([42] ++ l.drop 1) := by
    simpa using store_behind [] l 42 0 rfl (by omega)
  have s2 := storeAll_behind p [42] (l.drop 1) 1 rfl (by simp; omega)
  have s3 := store_behind ([42] ++ p) ((l.drop 1).drop p.length) 42 (1 + p.length)
    (by simp; omega) (by simp; omega)
  have s4 := storeAll_behind d (([42] ++ p) ++ [42]) (((l.drop 1).drop p.length).drop 1)
    (1 + p.length + 1) (by simp; omega) (by simp; omega)
  simp only [Address.EncodeInterop, h0, h10, if_false, s1, s2, s3, s4, PublicKeyLength,
    Nat.cast_ofNat, ctor_eq]
  refine ⟨_, rfl, rfl, rfl, ?_⟩
  rw [copyKey_val _ (by simp; omega)]
  simp only [List.drop_drop, List.append_assoc, List.singleton_append, List.cons_append,
    List.nil_append]
  have e : 1 + p.length + 1 + d.length = 2 + p.length + d.length := by omega
  rw [e]

theorem splice_take (l : List Byte) (i : Nat) (c : Byte) (hi : i < l.length) :
    (l.take i ++ c :: l.drop (i + 1)).take (i + 1) = l.take i ++ [c] := by
  have hl : (l.take i).length = i := by simp; omega
  rw [List.take_append_eq_append_take, hl]
  simp [List.take_take]

theorem splice_drop (l : List Byte) (i j : Nat) (c : Byte) (hi : i < l.length) :
    (l.take i ++ c :: l.drop (i + 1)).drop (i + 1 + j) = l.drop (i + 1 + j) := by
  have hl : (l.take i).length = i := by simp; omega
  rw [List.drop_append_eq_append_drop, hl]
  have e : i + 1 + j - i = j + 1 := by omega
  rw [e, List.drop_succ_cons, List.drop_drop]
  have e2 : List.drop (i + 1 + j) (List.take i l) = [] := by
    apply List.drop_eq_nil_of_le; omega
  rw [e2, List.nil_append]

theorem store_eq (array : List Byte) (i : Nat) (v : Byte) (h : i < array.length) :
    store array i v = some (array.take i ++ v :: array.drop (i + 1)) := by
  simp [store, h, List.set_eq_take_append_cons_drop]

theorem keyAt_append (a : Address) (pre post : List Byte) (c : Byte)
    (h : a.publicKey.val = pre ++ c :: post) : a.keyAt pre.length = c := by
  simp only [Address.keyAt, h]
  rw [List.getD_eq_getElem?_getD, List.getElem?_append_right (le_refl _)]
  simp

theorem drop_keyAt (a : Address) (j : Nat) (hj : j < 32) :
    a.publicKey.val.drop j = a.keyAt j :: a.publicKey.val.drop (j + 1) := by
  have hl := a.publicKey.property
  have hj2 : j < a.publicKey.val.length := by omega
  rw [List.drop_eq_getElem_cons hj2]
  simp [Address.keyAt, List.getD_eq_getElem?_getD, List.getElem?_eq_getElem hj2]

/-- The scanning loop started at the beginning of a stretch `s` without `'*'` that is
followed by a `'*'`: it stops at that `'*'` with `s` appended to the name. -/
theorem scanLoop_stretch (a : Address) (post : List Byte) (s : List Byte) :
    ∀ (pre : List Byte) (sb : Str) (fuel : Nat),
      a.publicKey.val = pre ++ s ++ 42 :: post → (∀ c ∈ s, c ≠ 42) → s.length < fuel →
      scanLoop a fuel pre.length sb = some (some (pre.length + s.length, sb ++ s)) := by
  induction s with
  | nil =>
    intro pre sb fuel hk _ hf
    have hl := a.publicKey.property
    have h32 : pre.length < 32 := by rw [hk] at hl; simp at hl; omega
    obtain ⟨f, rfl⟩ : ∃ f, fuel = f + 1 := ⟨fuel - 1, by simp at hf; omega⟩
    have hc : a.keyAt pre.length = 42 := keyAt_append a pre post 42 (by simpa using hk)
    simp [scanLoop, PublicKeyLength, h32, hc]
  | cons c rest ih =>
    intro pre sb fuel hk hs hf
    have hl := a.publicKey.property
    have h32 : pre.length < 32 := by rw [hk] at hl; simp at hl; omega
    obtain ⟨f, rfl⟩ : ∃ f, fuel = f + 1 := ⟨fuel - 1, by simp at hf; omega⟩
    have hc : a.keyAt pre.length = c :=
      keyAt_append a pre (rest ++ 42 :: post) c (by simpa using hk)
    have hne : c ≠ 42 := hs c (by simp)
    have hrec := ih (pre ++ [c]) (sb ++ [c]) f (by simpa using hk)
      (fun x hx => hs x (by simp [hx])) (by simp at hf; omega)
    simp only [List.length_append, List.length_singleton] at hrec
    simp only [scanLoop, PublicKeyLength, hc, hne, if_false, ge_iff_le,
      show ¬ (32 ≤ pre.length) from by omega]
    rw [hrec]
    simp only [List.length_cons, List.append_assoc, List.singleton_append, Option.some.injEq,
      Prod.mk.injEq, and_true]
    omega

/-- The copying loop, for a non-negative `expectedDataLength`: it stops at
`m = min(expectedDataLength, 32 - i)` and by then has copied the key bytes at offsets
`i + n … i + m - 1` to `data[n … m - 1]`, leaving the rest of `data` as it was. -/
theorem copyLoop_eq (a : Address) (i : Nat) (e : Int) (m : Nat) (he : 0 ≤ e)
    (hm : m = min e.toNat (32 - i)) :
    ∀ (fuel n : Nat) (data : List Byte), n ≤ m → m - n < fuel → m ≤ data.length →
      copyLoop a i e fuel n data =
        some (m, data.take n ++ (a.publicKey.val.drop (i + n)).take (m - n) ++ data.drop m) := by
  intro fuel
  induction fuel with
  | zero => intro n data _ hf _; omega
  | succ f ih =>
    intro n data hn hf hd
    by_cases hlt : n < m
    · have hc : ((n : Int) < e ∧ i + n < PublicKeyLength) := by
        simp only [PublicKeyLength]; omega
      have hnd : n < data.length := by omega
      simp only [copyLoop, hc, and_self, if_true, store_eq data n _ hnd]
      rw [ih (n + 1) _ (by omega) (by omega) (by simp; omega)]
      obtain ⟨j, hj⟩ : ∃ j, m = n + 1 + j := ⟨m - n - 1, by omega⟩
      rw [splice_take data n _ hnd, hj, splice_drop data n j _ hnd,
        drop_keyAt a (i + n) (by omega)]
      have e1 : n + 1 + j - n = j + 1 := by omega
      have e2 : n + 1 + j - (n + 1) = j := by omega
      rw [e1, e2, List.take_succ_cons]
      simp [Nat.add_assoc]
    · have hnm : n = m := by omega
      have hc : ¬ ((n : Int) < e ∧ i + n < PublicKeyLength) := by
        simp only [PublicKeyLength]; omega
      simp only [copyLoop, hc, if_false]
      subst hnm
      simp

/-- The result of `DecodeInterop` on a key laid out as `'*'`, a non-empty name `p` without `'*'`, `'*'`, a
payload `d` of at most 27 bytes, and anything after it, when asked for `len(d)` bytes. -/
theorem DecodeInterop_layout (a : Address) (p : Str) (d rest : List Byte)
    (name0 : Str) (data0 : List Byte)
    (hk : a.publicKey.val = 42 :: p ++ 42 :: d ++ rest)
    (hp : p ≠ []) (hstar : ∀ c ∈ p, c ≠ 42) (hd : d.length ≤ 27)
    (hdata : d.length ≤ data0.length) :
    a.DecodeInterop name0 data0 d.length =
      some { value := ⟨d.length, p, d ++ data0.drop d.length⟩, errors := [] } := by
  have hl := a.publicKey.property
  rw [hk] at hl
  simp only [List.cons_append, List.length_cons, List.length_append] at hl
  have h0 : a.keyAt 0 = 42 := keyAt_append a [] (p ++ 42 :: d ++ rest) 42 (by simpa using hk)
  have hnull : a.IsNull = false := by
    simp [Address.IsNull, hk, NullKey, List.replicate]
  have hint : a.IsInterop = true := by simp [Address.IsInterop, hnull, h0]
  have hscan := scanLoop_stretch a (d ++ rest) p [42] [] (PublicKeyLength + 1)
    (by simpa using hk) hstar (by simp only [PublicKeyLength]; omega)
  simp only [List.length_singleton, List.nil_append] at hscan
  have hplen : p.length ≠ 0 := by
    intro h; exact hp (List.length_eq_zero.mp h)
  have e1 : ¬ ((d.length : Int) < 0) := by omega
  have e2 : ¬ ((d.length : Int) > 27) := by omega
  simp only [Address.DecodeInterop, e1, e2, hint, if_false, Bool.not_true, hscan,
    List.nil_append, hplen, List.length_singleton, Bool.false_eq_true]
  by_cases hd0 : d.length = 0
  · have : d = [] := List.length_eq_zero.mp hd0
    subst this
    simp
  · have e3 : ((d.length : Int) > 0) := by omega
    simp only [e3, if_true]
    rw [copyLoop_eq a (1 + p.length + 1) d.length d.length (by omega)
      (by simp only [Int.toNat_ofNat]; omega) (PublicKeyLength + 1) 0 data0 (by omega)
      (by simp only [PublicKeyLength]; omega) hdata]
    have e4 : (a.publicKey.val.drop (1 + p.length + 1 + 0)).take (d.length - 0) = d := by
      rw [hk]
      have : (42 :: p ++ 42 :: d ++ rest) = (42 :: p ++ [42]) ++ (d ++ rest) := by simp
      rw [this, List.drop_left' (by simp; omega)]
      simp
    rw [e4]
    simp

/-- Claim C7 fails on the code.  A platform name that contains `'*'` is cut at that character
by `DecodeInterop` (for "a*b" and payload `[1]` the decoded name is "a" and the byte copied
out is `'b'`); and for a name of 10 characters with a payload of 27 bytes `EncodeInterop`
writes past the end of its 32-byte array, so no address results. -/
theorem interop_round_trip_fails :
    ((Address.EncodeInterop sampleStack32 (PHANTASMA_LITERAL "a*b") [1]).bind fun r =>
        r.value.DecodeInterop [] [0] 1)
      = some { value := ⟨1, PHANTASMA_LITERAL "a", [98]⟩, errors := [] } ∧
    Address.EncodeInterop sampleStack32 (PHANTASMA_LITERAL "abcdefghij") (List.replicate 27 1)
      = none := by
  decide

/-- Claim C7, amended.  For every platform name `p` with `1 ≤ len(p) ≤ 10` that contains no
`'*'` and every payload `d` with `len(d) ≤ 27` and `2 + len(p) + len(d) ≤ 32`,
`EncodeInterop(p, d)` reports nothing and `DecodeInterop` applied to its result with
`expectedDataLength = len(d)` reports nothing, returns `len(d)`, sets the platform name to
`p` and copies exactly the bytes of `d` to the start of `data`. -/
theorem interop_round_trip (bytes : Buf 32) (p : Str) (d : List Byte) (name0 : Str)
    (data0 : List Byte) (hp1 : 1 ≤ p.length) (hp2 : p.length ≤ 10)
    (hstar : ∀ c ∈ p, c ≠ 42) (hd : d.length ≤ 27) (hfit : 2 + p.length + d.length ≤ 32)
    (hdata : d.length ≤ data0.length) :
    ∃ a : Address, Address.EncodeInterop bytes p d = some { value := a, errors := [] } ∧
      a.DecodeInterop name0 data0 d.length =
        some { value := ⟨d.length, p, d ++ data0.drop d.length⟩, errors := [] } := by
  obtain ⟨a, hen, _, _, hk⟩ := EncodeInterop_eq bytes p d hp1 hp2 hfit
  refine ⟨a, hen, ?_⟩
  exact DecodeInterop_layout a p d _ name0 data0 hk
    (by intro h; rw [h] at hp1; simp at hp1) hstar hd hdata

/-- Instance of `interop_round_trip`: platform name "neo", payload `[1, 2, 3]`. -/
theorem interop_round_trip_witness :
    ∃ a : Address,
      Address.EncodeInterop sampleStack32 (PHANTASMA_LITERAL "neo") [1, 2, 3]
        = some { value := a, errors := [] } ∧
      a.DecodeInterop [] [0, 0, 0] ([1, 2, 3] : List Byte).length =
        some { value := ⟨([1, 2, 3] : List Byte).length, PHANTASMA_LITERAL "neo",
                 [1, 2, 3] ++ ([0, 0, 0] : List Byte).drop ([1, 2, 3] : List Byte).length⟩,
               errors := [] } :=
  interop_round_trip sampleStack32 (PHANTASMA_LITERAL "neo") [1, 2, 3] [] [0, 0, 0]
    (by decide) (by decide) (by decide) (by decide) (by decide) (by decide)

/-- With a valid platform name and a payload that does not fit in the key, `EncodeInterop`
writes past the end of its local array. -/
theorem EncodeInterop_none (bytes : Buf 32) (p : Str) (d : List Byte)
    (hp1 : 1 ≤ p.length) (hp2 : p.length ≤ 10) (hd : 32 < 2 + p.length + d.length) :
    Address.EncodeInterop bytes p d = none := by
  obtain ⟨l, hl⟩ := bytes
  have h0 : p.length ≠ 0 := by omega
  have h10 : ¬ p.length > MaxPlatformNameLength := by simp [MaxPlatformNameLength]; omega
  have s1 : store l 0 42 = some ([42] ++ l.drop 1) := by
    simpa using store_behind [] l 42 0 rfl (by omega)
  have s2 := storeAll_behind p [42] (l.drop 1) 1 rfl (by simp; omega)
  have s3 := store_behind ([42] ++ p) ((l.drop 1).drop p.length) 42 (1 + p.length)
    (by simp; omega) (by simp; omega)
  have s4 : storeAll (([42] ++ p) ++ [42] ++ ((l.drop 1).drop p.length).drop 1)
      (1 + p.length + 1) d = none := by
    cases hr : storeAll (([42] ++ p) ++ [42] ++ ((l.drop 1).drop p.length).drop 1)
      (1 + p.length + 1) d with
    | none => rfl
    | some r =>
      exfalso
      rcases storeAll_some d _ _ r hr with h | h
      · subst h; simp at hd; omega
      · simp at h; omega
  simp only [Address.EncodeInterop, h0, h10, if_false, s1, s2, s3, s4]

theorem keyAt_mid (a : Address) (pre mid post : List Byte)
    (hk : a.publicKey.val = pre ++ mid ++ post) (i : Nat) (h : i < mid.length) :
    a.keyAt (pre.length + i) = mid[i] := by
  have hsplit : mid = mid.take i ++ mid[i] :: mid.drop (i + 1) := by
    rw [← List.drop_eq_getElem_cons h, List.take_append_drop]
  have hk2 : a.publicKey.val = (pre ++ mid.take i) ++ mid[i] :: (mid.drop (i + 1) ++ post) := by
    have e : mid.take i ++ mid[i] :: (mid.drop (i + 1) ++ post) = mid ++ post := by
      rw [← List.cons_append, ← List.append_assoc, ← hsplit]
    rw [hk, List.append_assoc, List.append_assoc, e]
  have := keyAt_append a _ _ _ hk2
  simpa [Nat.min_eq_left h.le] using this

/-- Claim C10. For every platform name `p` with `1 ≤ len(p) ≤ 10` and payload `d` with
`2 + len(p) + len(d) ≤ 32`, `EncodeInterop(p, d)` reports nothing and returns an address
whose key is packed from offset 0: `key[0] == '*'`, `key[1+i] == p[i]`,
`key[1+len(p)] == '*'`, `key[2+len(p)+j] == d[j]`; the address is classified interop. -/
theorem EncodeInterop_layout (bytes : Buf 32) (p : Str) (d : List Byte)
    (hp1 : 1 ≤ p.length) (hp2 : p.length ≤ 10) (hfit : 2 + p.length + d.length ≤ 32) :
    ∃ a : Address, Address.EncodeInterop bytes p d = some { value := a, errors := [] } ∧
      a.keyAt 0 = 42 ∧
      (∀ (i : Nat) (h : i < p.length), a.keyAt (1 + i) = p[i]) ∧
      a.keyAt (1 + p.length) = 42 ∧
      (∀ (j : Nat) (h : j < d.length), a.keyAt (2 + p.length + j) = d[j]) ∧
      a.IsInterop = true := by
  obtain ⟨a, hen, _, _, hk⟩ := EncodeInterop_eq bytes p d hp1 hp2 hfit
  have h0 : a.keyAt 0 = 42 := keyAt_append a [] _ 42 (by simpa using hk)
  have hnull : a.IsNull = false := by
    simp [Address.IsNull, hk, NullKey, List.replicate]
  refine ⟨a, hen, h0, fun i h => ?_, ?_, fun j h => ?_, ?_⟩
  · exact keyAt_mid a [42] p _ (by simpa using hk) i h
  · have := keyAt_append a (42 :: p) _ 42 (by simpa using hk)
    simpa [Nat.add_comm] using this
  · have := keyAt_mid a (42 :: p ++ [42]) d _ (by simpa using hk) j h
    have e : (42 :: p ++ [42]).length + j = 2 + p.length + j := by simp; omega
    rwa [e] at this
  · simp [Address.IsInterop, hnull, h0]

/-- Instance of `EncodeInterop_layout`: platform name "neo", payload `[1, 2, 3]`. -/
theorem EncodeInterop_layout_witness :
    ∃ a : Address,
      Address.EncodeInterop sampleStack32 (PHANTASMA_LITERAL "neo") [1, 2, 3]
        = some { value := a, errors := [] } ∧
      a.keyAt 0 = 42 ∧
      (∀ (i : Nat) (h : i < (PHANTASMA_LITERAL "neo").length),
        a.keyAt (1 + i) = (PHANTASMA_LITERAL "neo")[i]) ∧
      a.keyAt (1 + (PHANTASMA_LITERAL "neo").length) = 42 ∧
      (∀ (j : Nat) (h : j < ([1, 2, 3] : List Byte).length),
        a.keyAt (2 + (PHANTASMA_LITERAL "neo").length + j) = ([1, 2, 3] : List Byte)[j]) ∧
      a.IsInterop = true :=
  EncodeInterop_layout sampleStack32 (PHANTASMA_LITERAL "neo") [1, 2, 3]
    (by decide) (by decide) (by decide)

theorem EncodeInterop_empty (bytes : Buf 32) (p : Str) (d : List Byte) (h0 : p.length = 0) :
    Address.EncodeInterop bytes p d =
      some { value := Address.Address0, errors := ["platform name cant be null"] } := by
  simp [Address.EncodeInterop, h0]

theorem EncodeInterop_long (bytes : Buf 32) (p : Str) (d : List Byte) (h : 10 < p.length) :
    Address.EncodeInterop bytes p d =
      some { value := Address.Address0, errors := ["platform name is too big"] } := by
  have h0 : p.length ≠ 0 := by omega
  have h10 : p.length > MaxPlatformNameLength := by simp [MaxPlatformNameLength]; omega
  simp only [Address.EncodeInterop, h0, h10, if_true, if_false]

/-- Claim C9. For every payload `d`, `EncodeInterop(p, d)` reports an error and returns the
null address exactly when the platform name `p` is empty or longer than 10 characters.  With
a name of 11 characters it does so; with a name of 1 to 10 characters every result it
produces comes without a report and is not the null address. -/
theorem EncodeInterop_error_exactly (bytes : Buf 32) (p : Str) (d : List Byte) :
    ((∃ r : Reported Address, Address.EncodeInterop bytes p d = some r ∧ r.errors ≠ [] ∧
        r.value = Address.Address0) ↔ (p.length = 0 ∨ 10 < p.length)) ∧
    (p.length = 11 → ∃ r : Reported Address, Address.EncodeInterop bytes p d = some r ∧
        r.errors = ["platform name is too big"] ∧ r.value = Address.Address0) ∧
    (p.length = 0 → ∃ r : Reported Address, Address.EncodeInterop bytes p d = some r ∧
        r.errors = ["platform name cant be null"] ∧ r.value = Address.Address0) ∧
    (1 ≤ p.length ∧ p.length ≤ 10 → ∀ r : Reported Address,
        Address.EncodeInterop bytes p d = some r → r.errors = [] ∧ r.value.IsNull = false) := by
  have hvalid : 1 ≤ p.length ∧ p.length ≤ 10 → ∀ r : Reported Address,
      Address.EncodeInterop bytes p d = some r → r.errors = [] ∧ r.value.IsNull = false := by
    intro ⟨hp1, hp2⟩ r hr
    by_cases hfit : 2 + p.length + d.length ≤ 32
    · obtain ⟨a, hen, _, _, hk⟩ := EncodeInterop_eq bytes p d hp1 hp2 hfit
      rw [hen] at hr
      cases hr
      refine ⟨rfl, ?_⟩
      simp [Address.IsNull, hk, NullKey, List.replicate]
    · rw [EncodeInterop_none bytes p d hp1 hp2 (by omega)] at hr
      cases hr
  refine ⟨⟨?_, ?_⟩, ?_, ?_, hvalid⟩
  · rintro ⟨r, hr, herr, _⟩
    by_contra hc
    exact herr (hvalid (by omega) r hr).1
  · intro h
    by_cases h0 : p.length = 0
    · exact ⟨_, EncodeInterop_empty bytes p d h0, by simp, rfl⟩
    · exact ⟨_, EncodeInterop_long bytes p d (by omega), by simp, rfl⟩
  · intro h
    exact ⟨_, EncodeInterop_long bytes p d (by omega), rfl, rfl⟩
  · intro h0
    exact ⟨_, EncodeInterop_empty bytes p d h0, rfl, rfl⟩

theorem scanLoop_defined (a : Address) : ∀ (fuel i : Nat) (sb : Str),
    PublicKeyLength - i < fuel → scanLoop a fuel i sb ≠ none := by
  intro fuel
  induction fuel with
  | zero => intro i sb h; omega
  | succ f ih =>
    intro i sb h
    simp only [scanLoop]
    split
    · simp
    · split
      · simp
      · exact ih (i + 1) _ (by omega)

/-- Totality: `DecodeInterop` has a result whenever the array `data` holds at least
`expectedDataLength` bytes: the fuel of its loops is never exhausted. -/
theorem DecodeInterop_defined (a : Address) (name0 : Str) (data0 : List Byte) (e : Int)
    (h : e ≤ data0.length) : a.DecodeInterop name0 data0 e ≠ none := by
  unfold Address.DecodeInterop
  split
  · simp
  · split
    · simp
    · split
      · simp
      · have hs := scanLoop_defined a (PublicKeyLength + 1) 1 [] (by omega)
        split
        · rename_i h1; exact absurd h1 hs
        · simp
        · split
          · simp
          · split
            · rename_i _ i _ _ _ he
              simp only []
              rw [copyLoop_eq a (i + 1) e (min e.toNat (32 - (i + 1))) (by omega) rfl
                (PublicKeyLength + 1) 0 data0 (by omega)
                (by simp only [PublicKeyLength]; omega) (by omega)]
              simp
            · simp

theorem scanLoop_none_of (a : Address) (s : List Byte) :
    ∀ (pre : List Byte) (sb : Str) (fuel : Nat),
      a.publicKey.val = pre ++ s → (∀ c ∈ s, c ≠ 42) → s.length < fuel →
      scanLoop a fuel pre.length sb = some none := by
  induction s with
  | nil =>
    intro pre sb fuel hk _ hf
    have hl := a.publicKey.property
    have h32 : pre.length = 32 := by rw [hk] at hl; simpa using hl
    obtain ⟨f, rfl⟩ : ∃ f, fuel = f + 1 := ⟨fuel - 1, by simp at hf; omega⟩
    simp [scanLoop, PublicKeyLength, h32]
  | cons c rest ih =>
    intro pre sb fuel hk hs hf
    have hl := a.publicKey.property
    have h32 : pre.length < 32 := by rw [hk] at hl; simp at hl; omega
    obtain ⟨f, rfl⟩ : ∃ f, fuel = f + 1 := ⟨fuel - 1, by simp at hf; omega⟩
    have hc : a.keyAt pre.length = c := keyAt_append a pre rest c hk
    have hne : c ≠ 42 := hs c (by simp)
    have hrec := ih (pre ++ [c]) (sb ++ [c]) f (by simpa using hk)
      (fun x hx => hs x (by simp [hx])) (by simp at hf; omega)
    simp only [List.length_append, List.length_singleton] at hrec
    simp only [scanLoop, PublicKeyLength, hc, hne, if_false, ge_iff_le,
      show ¬ (32 ≤ pre.length) from by omega]
    exact hrec

/-- Every element of the stretch `key[lo … hi-1]` is some `key[i]` with `lo ≤ i < hi`. -/
theorem mem_stretch (a : Address) (lo hi : Nat) (hhi : hi ≤ 32) (c : Byte)
    (hc : c ∈ (a.publicKey.val.take hi).drop lo) :
    ∃ i, lo ≤ i ∧ i < hi ∧ a.keyAt i = c := by
  have hl := a.publicKey.property
  obtain ⟨n, hn, hget⟩ := List.getElem_of_mem hc
  simp only [List.length_drop, List.length_take] at hn
  refine ⟨lo + n, by omega, by omega, ?_⟩
  simp only [List.getElem_drop, List.getElem_take] at hget
  rw [← hget]
  simp only [Address.keyAt]
  rw [List.getD_eq_getElem?_getD, List.getElem?_eq_getElem (by omega)]
  rfl

/-- The split of the key at an offset `t`: byte 0, the stretch `key[1 … t-1]`, `key[t]` and
the rest. -/
theorem key_split (a : Address) (t : Nat) (h1 : 1 ≤ t) (h32 : t < 32) :
    a.publicKey.val = a.publicKey.val.take 1 ++ (a.publicKey.val.take t).drop 1 ++
      a.keyAt t :: a.publicKey.val.drop (t + 1) := by
  have hl := a.publicKey.property
  rw [← drop_keyAt a t h32]
  have e1 : a.publicKey.val.take 1 = (a.publicKey.val.take t).take 1 := by
    rw [List.take_take, Nat.min_eq_left h1]
  rw [e1, List.take_append_drop, List.take_append_drop]

/-- The scanning loop of `DecodeInterop` when the first `'*'` behind offset 0 is at offset
`t`. -/
theorem scanLoop_first (a : Address) (t : Nat) (h1 : 1 ≤ t) (h32 : t < 32)
    (ht : a.keyAt t = 42) (hmin : ∀ i, i < t → 1 ≤ i → a.keyAt i ≠ 42) :
    scanLoop a (PublicKeyLength + 1) 1 [] =
      some (some (t, (a.publicKey.val.take t).drop 1)) := by
  have hl := a.publicKey.property
  have hk := key_split a t h1 h32
  rw [ht] at hk
  have hlen1 : (a.publicKey.val.take 1).length = 1 := by simp
  have hlens : ((a.publicKey.val.take t).drop 1).length = t - 1 := by simp; omega
  have h := scanLoop_stretch a (a.publicKey.val.drop (t + 1)) ((a.publicKey.val.take t).drop 1)
    (a.publicKey.val.take 1) [] (PublicKeyLength + 1) hk
    (fun c hc => by
      obtain ⟨i, hi1, hi2, hi3⟩ := mem_stretch a 1 t (by omega) c hc
      rw [← hi3]; exact hmin i hi2 hi1)
    (by rw [hlens]; simp only [PublicKeyLength]; omega)
  rw [hlen1, hlens] at h
  rw [h]
  simp only [List.nil_append, Option.some.injEq, Prod.mk.injEq, and_true]
  omega

/-- The scanning loop of `DecodeInterop` when no `'*'` occurs behind offset 0. -/
theorem scanLoop_no_star (a : Address) (h : ∀ i, i < 32 → 1 ≤ i → a.keyAt i ≠ 42) :
    scanLoop a (PublicKeyLength + 1) 1 [] = some none := by
  have hl := a.publicKey.property
  have hlen1 : (a.publicKey.val.take 1).length = 1 := by simp
  have h2 := scanLoop_none_of a (a.publicKey.val.drop 1) (a.publicKey.val.take 1) []
    (PublicKeyLength + 1) (by rw [List.take_append_drop])
    (fun c hc => by
      have hc2 : c ∈ (a.publicKey.val.take 32).drop 1 := by
        rw [List.take_of_length_le (by omega)]; exact hc
      obtain ⟨i, hi1, hi2, hi3⟩ := mem_stretch a 1 32 (by omega) c hc2
      rw [← hi3]; exact h i hi2 hi1)
    (by simp only [List.length_drop, PublicKeyLength]; omega)
  rw [hlen1] at h2
  exact h2

/-- The shape of `DecodeInterop` once its checks have passed: the first `'*'` behind offset 0
is at offset `t ≥ 2`, the name is `key[1 … t-1]`, and the copying loop starts at `t + 1`. -/
theorem DecodeInterop_scanned (a : Address) (name0 : Str) (data0 : List Byte) (e : Int)
    (t : Nat) (hint : a.IsInterop = true) (h2 : 2 ≤ t) (h32 : t < 32)
    (ht : a.keyAt t = 42) (hmin : ∀ i, i < t → 1 ≤ i → a.keyAt i ≠ 42)
    (he0 : 0 ≤ e) (he27 : e ≤ 27) :
    a.DecodeInterop name0 data0 e =
      if e > 0 then
        match copyLoop a (t + 1) e (PublicKeyLength + 1) 0 data0 with
        | none => none
        | some (n, data1) =>
          some { value := ⟨n, (a.publicKey.val.take t).drop 1, data1⟩, errors := [] }
      else some { value := ⟨0, (a.publicKey.val.take t).drop 1, data0⟩, errors := [] } := by
  have hl := a.publicKey.property
  have hscan := scanLoop_first a t (by omega) h32 ht hmin
  have hlen : ((a.publicKey.val.take t).drop 1).length ≠ 0 := by
    simp only [List.length_drop, List.length_take]; omega
  have e1 : ¬ (e < 0) := by omega
  have e2 : ¬ (e > 27) := by omega
  simp only [Address.DecodeInterop, e1, e2, hint, if_false, Bool.not_true, hscan, hlen,
    Bool.false_eq_true]

/-- The result of `DecodeInterop` once its checks have passed, for an array `data` that holds
the bytes to be copied. -/
theorem DecodeInterop_first (a : Address) (name0 : Str) (data0 : List Byte) (e : Int)
    (t : Nat) (hint : a.IsInterop = true) (h2 : 2 ≤ t) (h32 : t < 32)
    (ht : a.keyAt t = 42) (hmin : ∀ i, i < t → 1 ≤ i → a.keyAt i ≠ 42)
    (he0 : 0 ≤ e) (he27 : e ≤ 27) (hbuf : min e.toNat (31 - t) ≤ data0.length) :
    a.DecodeInterop name0 data0 e =
      some { value := ⟨(min e.toNat (31 - t) : Nat), (a.publicKey.val.take t).drop 1,
                (a.publicKey.val.drop (t + 1)).take (min e.toNat (31 - t)) ++
                  data0.drop (min e.toNat (31 - t))⟩,
             errors := [] } := by
  rw [DecodeInterop_scanned a name0 data0 e t hint h2 h32 ht hmin he0 he27]
  by_cases hpos : e > 0
  · simp only [hpos, if_true]
    rw [copyLoop_eq a (t + 1) e (min e.toNat (31 - t)) he0
      (by rw [show 32 - (t + 1) = 31 - t from by omega]) (PublicKeyLength + 1) 0
      data0 (by omega) (by simp only [PublicKeyLength]; omega) hbuf]
    simp
  · have h0 : e = 0 := by omega
    subst h0
    simp

/-- Once its checks have passed, `DecodeInterop` returns a count, never `-1`, and reports
nothing. -/
theorem DecodeInterop_scanned_result (a : Address) (name0 : Str) (data0 : List Byte) (e : Int)
    (t : Nat) (hint : a.IsInterop = true) (h2 : 2 ≤ t) (h32 : t < 32)
    (ht : a.keyAt t = 42) (hmin : ∀ i, i < t → 1 ≤ i → a.keyAt i ≠ 42)
    (he0 : 0 ≤ e) (he27 : e ≤ 27) (r : Reported Decoded)
    (hr : a.DecodeInterop name0 data0 e = some r) : 0 ≤ r.value.result ∧ r.errors = [] := by
  rw [DecodeInterop_scanned a name0 data0 e t hint h2 h32 ht hmin he0 he27] at hr
  by_cases hpos : e > 0
  · simp only [hpos, if_true] at hr
    cases hc : copyLoop a (t + 1) e (PublicKeyLength + 1) 0 data0 with
    | none => rw [hc] at hr; cases hr
    | some nd =>
      obtain ⟨n, d⟩ := nd
      rw [hc] at hr
      simp only [Option.some.injEq] at hr
      subst hr
      exact ⟨by simp, rfl⟩
  · simp only [hpos, if_false, Option.some.injEq] at hr
    subst hr
    exact ⟨by simp, rfl⟩

/-- The offset of the first `'*'` behind offset 0, when there is one. -/
theorem first_star (a : Address) (h : ¬ ∀ i, i < 32 → 1 ≤ i → a.keyAt i ≠ 42) :
    ∃ t, 1 ≤ t ∧ t < 32 ∧ a.keyAt t = 42 ∧ ∀ i, i < t → 1 ≤ i → a.keyAt i ≠ 42 := by
  have hex : ∃ i, 1 ≤ i ∧ i < 32 ∧ a.keyAt i = 42 := by
    by_contra hc
    exact h fun i hi1 hi2 hi3 => hc ⟨i, hi2, hi1, hi3⟩
  refine ⟨Nat.find hex, (Nat.find_spec hex).1, (Nat.find_spec hex).2.1,
    (Nat.find_spec hex).2.2, fun i hi h1 h42 => ?_⟩
  exact Nat.find_min hex hi ⟨h1, by have := (Nat.find_spec hex).2.1; omega, h42⟩

/-- The failing exits of `DecodeInterop`: `-1` is returned, one message is reported and the
output arguments are left as they were. -/
theorem DecodeInterop_failing (a : Address) (name0 : Str) (data0 : List Byte) (e : Int)
    (h : e < 0 ∨ e > 27 ∨ a.IsInterop = false ∨
      (∀ i, i < 32 → 1 ≤ i → a.keyAt i ≠ 42) ∨ a.keyAt 1 = 42) :
    ∃ msg : String, a.DecodeInterop name0 data0 e =
      some { value := ⟨-1, name0, data0⟩, errors := [msg] } := by
  by_cases e1 : e < 0
  · exact ⟨"invalid data length", by simp only [Address.DecodeInterop, e1, if_true]⟩
  by_cases e2 : e > 27
  · exact ⟨"data is too large",
      by simp only [Address.DecodeInterop, e1, e2, if_true, if_false]⟩
  by_cases e3 : a.IsInterop = false
  · exact ⟨"must be an interop address", by simp [Address.DecodeInterop, e1, e2, e3]⟩
  have hint : a.IsInterop = true := by simpa using e3
  by_cases e4 : ∀ i, i < 32 → 1 ≤ i → a.keyAt i ≠ 42
  · have hscan := scanLoop_no_star a e4
    exact ⟨"invalid interop address", by
      simp only [Address.DecodeInterop, e1, e2, hint, if_false, Bool.not_true, hscan,
        Bool.false_eq_true]⟩
  have e5 : a.keyAt 1 = 42 := by
    rcases h with h | h | h | h | h
    · exact absurd h e1
    · exact absurd h e2
    · exact absurd h e3
    · exact absurd h e4
    · exact h
  have hscan := scanLoop_first a 1 (le_refl 1) (by omega) e5 (fun i hi h1 => by omega)
  have hl := a.publicKey.property
  have hlen : ((a.publicKey.val.take 1).drop 1).length = 0 := by
    simp only [List.length_drop, List.length_take]; omega
  exact ⟨"invalid interop address", by
    simp only [Address.DecodeInterop, e1, e2, hint, if_false, Bool.not_true, hscan, hlen,
      if_true, Bool.false_eq_true]⟩

/-- Claim C12. `DecodeInterop` returns `-1` exactly when `expectedDataLength < 0`, or
`expectedDataLength > 27`, or the address is not interop, or no `'*'` occurs in
`key[1 … 31]`, or `key[1] == '*'`.  In each of these cases it reports one message and leaves
`platformName` and `data` as they were; this includes `expectedDataLength = 28` and `= -1`
on every address.  In every other case, with `data` holding `expectedDataLength` bytes, it
returns a count and reports nothing. -/
theorem DecodeInterop_fails_exactly (a : Address) (name0 : Str) (data0 : List Byte) (e : Int) :
    ((∃ r : Reported Decoded, a.DecodeInterop name0 data0 e = some r ∧ r.value.result = -1) ↔
      (e < 0 ∨ e > 27 ∨ a.IsInterop = false ∨
        (∀ i, i < 32 → 1 ≤ i → a.keyAt i ≠ 42) ∨ a.keyAt 1 = 42)) ∧
    ((e < 0 ∨ e > 27 ∨ a.IsInterop = false ∨
        (∀ i, i < 32 → 1 ≤ i → a.keyAt i ≠ 42) ∨ a.keyAt 1 = 42) →
      ∃ msg : String, a.DecodeInterop name0 data0 e =
        some { value := ⟨-1, name0, data0⟩, errors := [msg] }) ∧
    a.DecodeInterop name0 data0 28 =
      some { value := ⟨-1, name0, data0⟩, errors := ["data is too large"] } ∧
    a.DecodeInterop name0 data0 (-1) =
      some { value := ⟨-1, name0, data0⟩, errors := ["invalid data length"] } ∧
    (¬ (e < 0 ∨ e > 27 ∨ a.IsInterop = false ∨
        (∀ i, i < 32 → 1 ≤ i → a.keyAt i ≠ 42) ∨ a.keyAt 1 = 42) → e ≤ data0.length →
      ∃ r : Reported Decoded, a.DecodeInterop name0 data0 e = some r ∧
        0 ≤ r.value.result ∧ r.errors = []) := by
  have hok : ¬ (e < 0 ∨ e > 27 ∨ a.IsInterop = false ∨
      (∀ i, i < 32 → 1 ≤ i → a.keyAt i ≠ 42) ∨ a.keyAt 1 = 42) →
      ∃ t, a.IsInterop = true ∧ 2 ≤ t ∧ t < 32 ∧ a.keyAt t = 42 ∧
        (∀ i, i < t → 1 ≤ i → a.keyAt i ≠ 42) ∧ 0 ≤ e ∧ e ≤ 27 := by
    intro hc
    push_neg at hc
    obtain ⟨h1, h2, h3, h4, h5⟩ := hc
    obtain ⟨t, ht1, ht32, ht, hmin⟩ := first_star a (by
      intro hall
      obtain ⟨i, hi1, hi2, hi3⟩ := h4
      exact hall i hi1 hi2 hi3)
    have ht2 : 2 ≤ t := by
      rcases Nat.lt_or_ge t 2 with hlt | hge
      · have : t = 1 := by omega
        subst this
        exact absurd ht h5
      · exact hge
    exact ⟨t, by simpa using h3, ht2, ht32, ht, hmin, by omega, by omega⟩
  refine ⟨⟨?_, ?_⟩, DecodeInterop_failing a name0 data0 e, ?_, ?_, ?_⟩
  · rintro ⟨r, hr, hres⟩
    by_contra hc
    obtain ⟨t, hint, h2, h32, ht, hmin, he0, he27⟩ := hok hc
    have := (DecodeInterop_scanned_result a name0 data0 e t hint h2 h32 ht hmin he0 he27 r hr).1
    omega
  · intro h
    obtain ⟨msg, hm⟩ := DecodeInterop_failing a name0 data0 e h
    exact ⟨_, hm, rfl⟩
  · simp [Address.DecodeInterop]
  · simp [Address.DecodeInterop]
  · intro hc hbuf
    obtain ⟨t, hint, h2, h32, ht, hmin, he0, he27⟩ := hok hc
    exact ⟨_, DecodeInterop_first a name0 data0 e t hint h2 h32 ht hmin he0 he27 (by omega),
      by simp, rfl⟩

/-- Claim C13. For every interop address whose first `'*'` behind offset 0 is at offset `t`
with `2 ≤ t ≤ 31`, and every `expectedDataLength = e` with `0 ≤ e ≤ 27` (the array `data`
holding `e` bytes), `DecodeInterop` reports nothing, sets the platform name to
`key[1 … t-1]`, returns `n = min(e, 31 - t)`, copies `data[j] = key[t+1+j]` for `j < n` and
leaves `data[j]` as it was for `j ≥ n`. -/
theorem DecodeInterop_copies (a : Address) (name0 : Str) (data0 : List Byte) (e : Int) (t : Nat)
    (hint : a.IsInterop = true) (h2 : 2 ≤ t) (h31 : t ≤ 31) (ht : a.keyAt t = 42)
    (hmin : ∀ i, i < t → 1 ≤ i → a.keyAt i ≠ 42) (he0 : 0 ≤ e) (he27 : e ≤ 27)
    (hbuf : e ≤ data0.length) :
    ∃ r : Decoded, a.DecodeInterop name0 data0 e = some { value := r, errors := [] } ∧
      r.result = min e (31 - (t : Int)) ∧
      r.platformName = (a.publicKey.val.take t).drop 1 ∧
      (∀ j, j < r.result.toNat → r.data.getD j 0 = a.keyAt (t + 1 + j)) ∧
      (∀ j, r.result.toNat ≤ j → r.data[j]? = data0[j]?) ∧
      r.data.length = data0.length := by
  have hl := a.publicKey.property
  have hn : min e.toNat (31 - t) ≤ data0.length := by omega
  refine ⟨_, DecodeInterop_first a name0 data0 e t hint h2 (by omega) ht hmin he0 he27 hn,
    ?_, rfl, ?_, ?_, ?_⟩
  · show ((min e.toNat (31 - t) : Nat) : Int) = min e (31 - (t : Int))
    omega
  · intro j hj
    simp only [Int.toNat_ofNat] at hj
    have hlen : ((a.publicKey.val.drop (t + 1)).take (min e.toNat (31 - t))).length
        = min e.toNat (31 - t) := by
      simp only [List.length_take, List.length_drop]; omega
    show (List.take _ _ ++ List.drop _ data0).getD j 0 = _
    rw [List.getD_eq_getElem?_getD, List.getElem?_append_left (by omega),
      List.getElem?_take_of_lt hj, List.getElem?_drop]
    simp [Address.keyAt, List.getD_eq_getElem?_getD]
  · intro j hj
    simp only [Int.toNat_ofNat] at hj
    have hlen : ((a.publicKey.val.drop (t + 1)).take (min e.toNat (31 - t))).length
        = min e.toNat (31 - t) := by
      simp only [List.length_take, List.length_drop]; omega
    show (List.take _ _ ++ List.drop _ data0)[j]? = _
    rw [List.getElem?_append_right (by omega), hlen, List.getElem?_drop]
    congr 1; omega
  · show (List.take _ _ ++ List.drop _ data0).length = _
    simp only [List.length_append, List.length_take, List.length_drop]; omega

/-- Instance of `DecodeInterop_copies`: the sample interop key, whose first `'*'` behind
offset 0 is at offset 4, asked for 3 bytes. -/
theorem DecodeInterop_copies_witness :
    ∃ r : Decoded, sampleInterop.DecodeInterop [] [0, 0, 0] 3
        = some { value := r, errors := [] } ∧
      r.result = min 3 (31 - ((4 : Nat) : Int)) ∧
      r.platformName = (sampleInterop.publicKey.val.take 4).drop 1 ∧
      (∀ j, j < r.result.toNat → r.data.getD j 0 = sampleInterop.keyAt (4 + 1 + j)) ∧
      (∀ j, r.result.toNat ≤ j → r.data[j]? = ([0, 0, 0] : List Byte)[j]?) ∧
      r.data.length = ([0, 0, 0] : List Byte).length :=
  DecodeInterop_copies sampleInterop [] [0, 0, 0] 3 4 (by decide) (by decide) (by decide)
    (by decide) (by decide) (by decide) (by decide) (by decide)

/-- Claim C11. What `EncodeInterop` leaves behind the payload: for every valid platform name
and fitting payload, the key bytes from offset `2 + len(p) + len(d)` on are the bytes that
the uninitialised local array held at entry, not zero.  For "neo" with payload `1, 2, 3`,
byte 8 of the key is 7 when the array held sevens, and the addresses obtained from an array
of sevens and from an array of zeros differ under `operator==`. -/
theorem EncodeInterop_filler :
    (∀ (bytes : Buf 32) (p : Str) (d : List Byte), 1 ≤ p.length → p.length ≤ 10 →
      2 + p.length + d.length ≤ 32 →
      ∃ a : Address, Address.EncodeInterop bytes p d = some { value := a, errors := [] } ∧
        a.publicKey.val.drop (2 + p.length + d.length)
          = bytes.val.drop (2 + p.length + d.length)) ∧
    (Address.EncodeInterop sampleStack32 (PHANTASMA_LITERAL "neo") [1, 2, 3]).map
      (fun r => r.value.keyAt 8) = some 7 ∧
    ((Address.EncodeInterop sampleStack32 (PHANTASMA_LITERAL "neo") [1, 2, 3]).bind fun r1 =>
      (Address.EncodeInterop sampleStackZero (PHANTASMA_LITERAL "neo") [1, 2, 3]).map fun r2 =>
        r1.value.opEq r2.value) = some false := by
  refine ⟨fun bytes p d hp1 hp2 hfit => ?_, by decide, by decide⟩
  obtain ⟨a, hen, _, _, hk⟩ := EncodeInterop_eq bytes p d hp1 hp2 hfit
  refine ⟨a, hen, ?_⟩
  rw [hk]
  have e : 42 :: p ++ 42 :: d ++ bytes.val.drop (2 + p.length + d.length)
      = (42 :: p ++ 42 :: d) ++ bytes.val.drop (2 + p.length + d.length) := by simp
  rw [e, List.drop_left' (by simp; omega)]

/-! ### Construction, serialisation, import -/

/-- Claim C15. The constructor `Address(publicKey, length)` reports "Invalid public key
length" and yields the null address exactly when the pointer is null or `length` is not 32;
for `length == 32` it reports nothing and the key is the first 32 bytes the pointer
designates. -/
theorem ctor_length_check (publicKey : Option (List Byte)) (length : Int) :
    (((Address.ctor publicKey length).errors = ["Invalid public key length"] ∧
        (Address.ctor publicKey length).value = Address.Address0) ↔
      (publicKey = none ∨ length ≠ 32)) ∧
    ((Address.ctor publicKey length).errors ≠ [] ↔ (publicKey = none ∨ length ≠ 32)) ∧
    Address.Address0.IsNull = true ∧
    Address.Address0.publicKey.val = List.replicate 32 0 ∧
    (∀ (k : Buf 32) (rest : List Byte),
      (Address.ctor (some (k.val ++ rest)) 32).errors = [] ∧
      (Address.ctor (some (k.val ++ rest)) 32).value.publicKey = k) := by
  refine ⟨?_, ?_, by decide, rfl, fun k rest => ?_⟩
  · cases publicKey with
    | none => simp [Address.ctor]
    | some p =>
      by_cases hl : length = 32
      · subst hl; rw [ctor_eq]; simp
      · simp [Address.ctor, PublicKeyLength, hl]
  · cases publicKey with
    | none => simp [Address.ctor]
    | some p =>
      by_cases hl : length = 32
      · subst hl; rw [ctor_eq]; simp
      · simp [Address.ctor, PublicKeyLength, hl]
  · rw [ctor_eq]
    refine ⟨rfl, Subtype.ext ?_⟩
    simp [copyKey, List.take_append_of_le_length, k.property]

theorem ReadByteArray_eq (k : Buf 32) (rest : List Byte) :
    ReadByteArray (k.val ++ rest) = some (k, rest) := by
  have hk := k.property
  have h : 32 ≤ (k.val ++ rest).length := by simp [hk]
  simp only [ReadByteArray, h, dite_true, Option.some.injEq, Prod.mk.injEq]
  refine ⟨Subtype.ext ?_, ?_⟩
  · simp [List.take_append_of_le_length, hk]
  · exact List.drop_left' hk

theorem UnserializeData_eq (a : Address) (k : Buf 32) (rest : List Byte) :
    a.UnserializeData (k.val ++ rest) =
      some ({ opcode := a.opcode, publicKey := k, text := [] }, rest) := by
  simp only [Address.UnserializeData, ReadByteArray_eq]

/-- Claim C14. For every 32-byte key `k`, `SerializeData` on `Address(k)` appends exactly the
32 bytes of `k` to the stream, and `UnserializeData` reading these bytes into any address
consumes exactly them and yields an address with key `k`, equal under `operator==` to
`Address(k)`, with an empty text cache. -/
theorem binary_round_trip (k : Buf 32) (writer rest : List Byte) (b : Address) :
    (Address.ctor (some k.val) 32).value.SerializeData writer = writer ++ k.val ∧
    ((Address.ctor (some k.val) 32).value.SerializeData []).length = 32 ∧
    ∃ b1 : Address,
      b.UnserializeData ((Address.ctor (some k.val) 32).value.SerializeData [] ++ rest)
        = some (b1, rest) ∧
      b1.publicKey = k ∧ b1.text = [] ∧
      b1.opEq (Address.ctor (some k.val) 32).value = true ∧
      b1.opNe (Address.ctor (some k.val) 32).value = false := by
  have hkey := ctor_key k
  have hser : ∀ w, (Address.ctor (some k.val) 32).value.SerializeData w = w ++ k.val := by
    intro w; simp only [Address.SerializeData, WriteByteArray, hkey]
  refine ⟨hser writer, by rw [hser]; simp [k.property], ?_⟩
  rw [hser, List.nil_append, UnserializeData_eq]
  exact ⟨_, rfl, rfl, rfl, by simp [Address.opEq, hkey], by simp [Address.opNe, hkey]⟩

theorem strlen_zero_iff (w : Str) : PHANTASMA_STRLEN w = 0 ↔ w.getD 0 0 = 0 := by
  cases w with
  | nil => simp [PHANTASMA_STRLEN]
  | cons c rest =>
    simp only [PHANTASMA_STRLEN, List.getD_cons_zero]
    split <;> simp_all

/-- Claim C16. `FromWIF` reports an error and returns the null address exactly when the secret
is empty (as the C string that is tested: no character in front of the first NUL), or
`CheckDecodeSecure` does not return 34, or decoded byte 0 is not `0x80`, or decoded byte 33
is not `0x01`; otherwise it reports nothing and returns the address whose key is
`PublicKeyFromSeed` of the decoded bytes 1 to 32.  The result is a function of the secret,
so equal secrets give equal addresses. -/
theorem FromWIF_error_exactly (CheckDecodeSecure : Buf 34 → Str → Int × Buf 34)
    (PublicKeyFromSeed : List Byte → Buf 32) (data : Buf 34) (w : Str) :
    (((Address.FromWIF CheckDecodeSecure PublicKeyFromSeed data w).errors ≠ [] ∧
        (Address.FromWIF CheckDecodeSecure PublicKeyFromSeed data w).value = Address.Address0) ↔
      (PHANTASMA_STRLEN w = 0 ∨ (CheckDecodeSecure data w).1 ≠ 34 ∨
        (CheckDecodeSecure data w).2.val.getD 0 0 ≠ 128 ∨
        (CheckDecodeSecure data w).2.val.getD 33 0 ≠ 1)) ∧
    (((Address.FromWIF CheckDecodeSecure PublicKeyFromSeed data w).errors = [] ∧
        (Address.FromWIF CheckDecodeSecure PublicKeyFromSeed data w).value.publicKey =
          PublicKeyFromSeed (((CheckDecodeSecure data w).2.val.drop 1).take 32)) ↔
      ¬ (PHANTASMA_STRLEN w = 0 ∨ (CheckDecodeSecure data w).1 ≠ 34 ∨
        (CheckDecodeSecure data w).2.val.getD 0 0 ≠ 128 ∨
        (CheckDecodeSecure data w).2.val.getD 33 0 ≠ 1)) := by
  have htake : w.take ((w.length : Int)).toNat = w := by simp
  by_cases h0 : w.getD 0 0 = 0
  · have hs : PHANTASMA_STRLEN w = 0 := (strlen_zero_iff w).2 h0
    have hval : Address.FromWIF CheckDecodeSecure PublicKeyFromSeed data w =
        { value := Address.Address0, errors := ["WIF required"] } := by
      simp only [Address.FromWIF, Address.FromWIFPtr, h0, true_or, if_true]
    rw [hval]
    exact ⟨⟨fun _ => Or.inl hs, fun _ => ⟨List.cons_ne_nil _ _, rfl⟩⟩,
      ⟨fun h => absurd h.1 (List.cons_ne_nil _ _), fun h => absurd (Or.inl hs) h⟩⟩
  · have hs : ¬ PHANTASMA_STRLEN w = 0 := fun h => h0 ((strlen_zero_iff w).1 h)
    have hlen : ¬ ((w.length : Int) ≤ 0) := by
      cases w with
      | nil => simp at h0
      | cons c rest => simp
    by_cases hbad : (CheckDecodeSecure data w).1 ≠ 34 ∨
        (CheckDecodeSecure data w).2.val.getD 0 0 ≠ 128 ∨
        (CheckDecodeSecure data w).2.val.getD 33 0 ≠ 1
    · have hval : Address.FromWIF CheckDecodeSecure PublicKeyFromSeed data w =
          { value := Address.Address0, errors := ["Invalid WIF format"] } := by
        simp only [Address.FromWIF, Address.FromWIFPtr, h0, hlen, or_self, if_false, htake,
          hbad, if_true]
      rw [hval]
      exact ⟨⟨fun _ => Or.inr hbad, fun _ => ⟨List.cons_ne_nil _ _, rfl⟩⟩,
        ⟨fun h => absurd h.1 (List.cons_ne_nil _ _), fun h => absurd (Or.inr hbad) h⟩⟩
    · have hval : Address.FromWIF CheckDecodeSecure PublicKeyFromSeed data w =
          Address.ctor (some (PublicKeyFromSeed
            (((CheckDecodeSecure data w).2.val.drop 1).take 32)).val) 32 := by
        simp only [Address.FromWIF, Address.FromWIFPtr, h0, hlen, or_self, if_false, htake,
          hbad]
      rw [hval, ctor_eq, copyKey_buf]
      exact ⟨⟨fun h => absurd rfl h.1, fun h => h.elim (fun h1 => absurd h1 hs)
          (fun h1 => absurd h1 hbad)⟩,
        ⟨fun _ h => h.elim (fun h1 => hs h1) (fun h1 => hbad h1), fun _ => ⟨rfl, rfl⟩⟩⟩

/-- Claim C17. The default-constructed address is null and system; `ToString()` returns the
literal "[Null address]" for every null address and `Text()` for every other address. -/
theorem ToString_null (codec : Base58) (a : Address) :
    Address.Address0.IsNull = true ∧ Address.Address0.IsSystem = true ∧
    (Address.Address0.ToString codec).1 = PHANTASMA_LITERAL "[Null address]" ∧
    (a.IsNull = true → (a.ToString codec).1 = PHANTASMA_LITERAL "[Null address]") ∧
    (a.IsNull = false → a.ToString codec = a.Text codec) := by
  refine ⟨by decide, by decide, by simp [Address.ToString, Address.Address0], ?_, ?_⟩
  · intro h
    simp only [Address.IsNull] at h
    simp [Address.ToString, h]
  · intro h
    simp only [Address.IsNull] at h
    simp [Address.ToString, h]

/-- Claim C18 fails on the code: for the platform name "a" and a payload of 28 bytes, which
fit in the key (`2 + 1 + 28 ≤ 32`), `EncodeInterop` succeeds, but `DecodeInterop` with
`expectedDataLength = 28` reports "data is too large", returns `-1` and copies nothing. -/
theorem interop_round_trip_28 :
    2 + (PHANTASMA_LITERAL "a").length + (List.replicate 28 (1 : Byte)).length ≤ 32 ∧
    (∀ c ∈ PHANTASMA_LITERAL "a", c ≠ 42) ∧
    ((Address.EncodeInterop sampleStack32 (PHANTASMA_LITERAL "a") (List.replicate 28 1)).bind
        fun r => r.value.DecodeInterop [] (List.replicate 28 0) 28)
      = some { value := ⟨-1, [], List.replicate 28 0⟩, errors := ["data is too large"] } := by
  decide

/-- Claim C18, amended.  For every platform name `p` with `1 ≤ len(p) ≤ 10` that contains no
`'*'` and every payload `d` with `len(d) ≤ 27` and `2 + len(p) + len(d) ≤ 32`,
`DecodeInterop` applied to `EncodeInterop(p, d)` with `expectedDataLength = len(d)`
succeeds, returns `len(d)`, yields the platform name `p` and copies out exactly `d`; and for
the name "a*b", which contains `'*'`, the decoded platform name is "a", not "a*b". -/
theorem interop_round_trip_star (bytes : Buf 32) (p : Str) (d : List Byte) (name0 : Str)
    (data0 : List Byte) (hp1 : 1 ≤ p.length) (hp2 : p.length ≤ 10)
    (hstar : ∀ c ∈ p, c ≠ 42) (hd : d.length ≤ 27) (hfit : 2 + p.length + d.length ≤ 32)
    (hdata : d.length = data0.length) :
    (∃ a : Address, Address.EncodeInterop bytes p d = some { value := a, errors := [] } ∧
      a.DecodeInterop name0 data0 d.length =
        some { value := ⟨d.length, p, d⟩, errors := [] }) ∧
    ((Address.EncodeInterop bytes (PHANTASMA_LITERAL "a*b") []).bind fun r =>
        (r.value.DecodeInterop name0 [] 0).map fun x => x.value.platformName)
      = some (PHANTASMA_LITERAL "a") ∧
    PHANTASMA_LITERAL "a" ≠ PHANTASMA_LITERAL "a*b" := by
  refine ⟨?_, ?_, by decide⟩
  · obtain ⟨a, hen, _, _, hk⟩ := EncodeInterop_eq bytes p d hp1 hp2 hfit
    refine ⟨a, hen, ?_⟩
    have h := DecodeInterop_layout a p d _ name0 data0 hk
      (by intro h; rw [h] at hp1; simp at hp1) hstar hd (by omega)
    rw [h, hdata, List.drop_length, List.append_nil]
  · obtain ⟨a, hen, _, _, hk⟩ := EncodeInterop_eq bytes (PHANTASMA_LITERAL "a*b") []
      (by decide) (by decide) (by decide)
    have hk2 : a.publicKey.val = 42 :: PHANTASMA_LITERAL "a" ++ 42 :: [] ++
        (98 :: 42 :: bytes.val.drop 5) := by
      rw [hk]; rfl
    have h := DecodeInterop_layout a (PHANTASMA_LITERAL "a") [] _ name0 [] hk2
      (by decide) (by decide) (by decide) (by decide)
    rw [hen]
    show (a.DecodeInterop name0 [] (([] : List Byte).length : Int)).map _ = _
    rw [h]
    rfl

/-- Instance of `interop_round_trip_star`: platform name "neo", payload `[1, 2, 3]`. -/
theorem interop_round_trip_star_witness :
    (∃ a : Address,
      Address.EncodeInterop sampleStack32 (PHANTASMA_LITERAL "neo") [1, 2, 3]
        = some { value := a, errors := [] } ∧
      a.DecodeInterop [] [0, 0, 0] ([1, 2, 3] : List Byte).length =
        some { value := ⟨([1, 2, 3] : List Byte).length, PHANTASMA_LITERAL "neo", [1, 2, 3]⟩,
               errors := [] }) ∧
    ((Address.EncodeInterop sampleStack32 (PHANTASMA_LITERAL "a*b") []).bind fun r =>
        (r.value.DecodeInterop [] [] 0).map fun x => x.value.platformName)
      = some (PHANTASMA_LITERAL "a") ∧
    PHANTASMA_LITERAL "a" ≠ PHANTASMA_LITERAL "a*b" :=
  interop_round_trip_star sampleStack32 (PHANTASMA_LITERAL "neo") [1, 2, 3] [] [0, 0, 0]
    (by decide) (by decide) (by decide) (by decide) (by decide) (by decide)

/-- Claim C19. `UnserializeData` replaces the key and clears the text cache and leaves
`_opcode` as it was.  Reading a 32-byte key `k` into a default-constructed address gives an
address with opcode 74 whose `Text()` is the encoding of `[74] ++ k`; for a codec that
decodes the encodings of `[74] ++ k` and `[85] ++ k` back to these bytes, this text differs
from `Address(k).Text()`, although the two addresses are equal under `operator==`. -/
theorem UnserializeData_keeps_opcode (codec : Base58) (bytes : Buf 33) (k : Buf 32)
    (rest : List Byte) (a : Address)
    (h74 : (codec.Decode bytes (codec.Encode (74 :: k.val))).2.val = 74 :: k.val)
    (h85 : (codec.Decode bytes (codec.Encode (85 :: k.val))).2.val = 85 :: k.val) :
    a.UnserializeData (k.val ++ rest) =
      some ({ opcode := a.opcode, publicKey := k, text := [] }, rest) ∧
    ∃ b : Address, Address.Address0.UnserializeData (k.val ++ rest) = some (b, rest) ∧
      b.opcode = 74 ∧ b.text = [] ∧
      (b.Text codec).1 = codec.Encode (74 :: k.val) ∧
      (b.Text codec).1 ≠ ((Address.ctor (some k.val) 32).value.Text codec).1 ∧
      b.opEq (Address.ctor (some k.val) 32).value = true := by
  refine ⟨UnserializeData_eq a k rest, _, UnserializeData_eq _ k rest, rfl, rfl, ?_, ?_, ?_⟩
  · rw [Text_fresh _ _ rfl]; rfl
  · rw [Text_fresh _ _ rfl, ctor_eq, Text_fresh _ _ rfl, copyKey_buf]
    intro heq
    have heq2 : codec.Encode (74 :: k.val) = codec.Encode (85 :: k.val) := heq
    rw [heq2, h85] at h74
    simp at h74
  · simp [Address.opEq, ctor_key]

/-- Instance of `UnserializeData_keeps_opcode`: the sample user key under the standard
Base58 codec. -/
theorem UnserializeData_keeps_opcode_witness :
    sampleInterop.UnserializeData (sampleUserKey.val ++ []) =
      some ({ opcode := sampleInterop.opcode, publicKey := sampleUserKey, text := [] }, []) ∧
    ∃ b : Address, Address.Address0.UnserializeData (sampleUserKey.val ++ []) = some (b, []) ∧
      b.opcode = 74 ∧ b.text = [] ∧
      (b.Text standardBase58).1 = standardBase58.Encode (74 :: sampleUserKey.val) ∧
      (b.Text standardBase58).1
        ≠ ((Address.ctor (some sampleUserKey.val) 32).value.Text standardBase58).1 ∧
      b.opEq (Address.ctor (some sampleUserKey.val) 32).value = true :=
  UnserializeData_keeps_opcode standardBase58 sampleStack33 sampleUserKey [] sampleInterop
    (by decide) (by decide)

/-- Claim C20. `FromText` checks the decoded opcode for membership in {75, 85, 102} and does
not pass it on: the address is built from the key alone.  For a text `t` that encodes
`[op] ++ k` with `op` one of 75 and 102 in 45 characters (the codec decoding the encodings
of `[op] ++ k` and `[85] ++ k` back to these bytes), `FromText(t)` reports nothing and
`FromText(t).Text()` is the encoding of `[85] ++ k`, which is not `t`. -/
theorem FromText_Text_differs (codec : Base58) (bytes : Buf 33) (out_error : Option Bool)
    (op : Byte) (k : Buf 32) (hop : op = 75 ∨ op = 102)
    (hlen : (codec.Encode (op :: k.val)).length = 45)
    (hdec : (codec.Decode bytes (codec.Encode (op :: k.val))).1 = 33 ∧
      (codec.Decode bytes (codec.Encode (op :: k.val))).2.val = op :: k.val)
    (h85 : (codec.Decode bytes (codec.Encode (85 :: k.val))).2.val = 85 :: k.val) :
    (Address.FromText codec bytes (codec.Encode (op :: k.val)) out_error).errors = [] ∧
    (Address.FromText codec bytes (codec.Encode (op :: k.val)) out_error).value.2 = out_error ∧
    ((Address.FromText codec bytes (codec.Encode (op :: k.val)) out_error).value.1.Text codec).1
      = codec.Encode (85 :: k.val) ∧
    ((Address.FromText codec bytes (codec.Encode (op :: k.val)) out_error).value.1.Text codec).1
      ≠ codec.Encode (op :: k.val) := by
  have hnf : ¬ FromTextFails codec bytes (codec.Encode (op :: k.val)) := by
    rw [(FromText_Encode codec bytes out_error op k hlen hdec).1]
    rcases hop with h | h <;> subst h <;> decide
  have hval := FromText_of_not_fails codec bytes _ out_error hnf
  have htext : ((Address.FromText codec bytes (codec.Encode (op :: k.val))
      out_error).value.1.Text codec).1 = codec.Encode (85 :: k.val) := by
    rw [hval, hdec.2]
    show ((Address.ctor (some k.val) 32).value.Text codec).1 = _
    rw [ctor_eq, Text_fresh _ _ rfl, copyKey_buf]
  refine ⟨by rw [hval], by rw [hval], htext, ?_⟩
  rw [htext]
  intro heq
  rw [heq, hdec.2] at h85
  rcases hop with h | h <;> subst h <;> simp at h85

/-- Instance of `FromText_Text_differs`: opcode 75 in front of a key that starts with `'!'`,
under the standard Base58 codec. -/
theorem FromText_Text_differs_witness :
    (Address.FromText standardBase58 sampleStack33
      (standardBase58.Encode (75 :: sampleSystemKey.val)) none).errors = [] ∧
    (Address.FromText standardBase58 sampleStack33
      (standardBase58.Encode (75 :: sampleSystemKey.val)) none).value.2 = none ∧
    ((Address.FromText standardBase58 sampleStack33
      (standardBase58.Encode (75 :: sampleSystemKey.val)) none).value.1.Text standardBase58).1
      = standardBase58.Encode (85 :: sampleSystemKey.val) ∧
    ((Address.FromText standardBase58 sampleStack33
      (standardBase58.Encode (75 :: sampleSystemKey.val)) none).value.1.Text standardBase58).1
      ≠ standardBase58.Encode (75 :: sampleSystemKey.val) :=
  FromText_Text_differs standardBase58 sampleStack33 none 75 sampleSystemKey (Or.inl rfl)
    (by decide) (by decide) (by decide)

/-! ### Classification -/

/-- Claim C8. Classification is exhaustive and mutually exclusive: every address satisfies
exactly one of `IsUser()`, `IsInterop()`, `IsSystem()`, and a null address is a system address
(hence neither interop nor user). -/
theorem classification_exclusive (a : Address) :
    ((a.IsUser = true ∧ a.IsInterop = false ∧ a.IsSystem = false) ∨
     (a.IsUser = false ∧ a.IsInterop = true ∧ a.IsSystem = false) ∨
     (a.IsUser = false ∧ a.IsInterop = false ∧ a.IsSystem = true)) ∧
    (a.IsNull = true → a.IsSystem = true ∧ a.IsInterop = false ∧ a.IsUser = false) := by
  unfold Address.IsUser Address.IsInterop Address.IsSystem
  by_cases h33 : a.keyAt 0 = 33
  · have h42 : (a.keyAt 0 == 42) = false := by rw [h33]; decide
    cases hn : a.IsNull <;> simp [h33, h42]
  · cases hn : a.IsNull <;> cases h42 : (a.keyAt 0 == 42) <;> simp [h33]

end phantasma
